import Mathlib

/-!
Verification of the primer-matching and clip-decision engine of
`tools/seq_primer_clip/seq_primer_clip.py`.

The Python code compiles each primer (with IUPAC ambiguity codes and a
mismatch budget of at most 2) into a family of regular-expression strings,
joins them into one alternation, and scans each record with `re.search`.
We embed the pattern-generation functions character-for-character
(`ambiguous_dna_values`, `make_reg_ex`, `make_reg_ex_mm`,
`load_primers_as_re`), model the relevant fragment of Python's `re` engine
(literals, character classes, `.`, `^`, `$`, alternation, leftmost search)
as an executable token matcher, and model the per-record clip loops for
FASTQ, FASTA and SFF records.

Sequences are `List Char`.  Fallible Python code (KeyError on an unknown
symbol, NotImplementedError on mismatch counts above 2) is modelled with
`Option` / `Except`.  Python's `set` + `sorted(key = minus len)` on the
generated pattern strings is modelled as first-occurrence deduplication
followed by a stable descending insertion sort; Python's set iteration
order for equal-length patterns is unspecified, so every theorem below is
robust to the order of equal-length patterns.
-/

/-- Ambiguity table of the script (the `ambiguous_dna_values` dict),
as an association list in source order.  The values of `X` and `N`
are the single character `.`, exactly as in the source. -/
def ambiguous_dna_values : List (Char × List Char) :=
  [ ('A', ['A']),
    ('C', ['C']),
    ('G', ['G']),
    ('T', ['T']),
    ('M', ['A', 'C', 'M']),
    ('R', ['A', 'G', 'R']),
    ('W', ['A', 'T', 'W']),
    ('S', ['C', 'G', 'S']),
    ('Y', ['C', 'T', 'Y']),
    ('K', ['G', 'T', 'K']),
    ('V', ['A', 'C', 'G', 'M', 'R', 'S', 'V']),
    ('H', ['A', 'C', 'T', 'M', 'W', 'Y', 'H']),
    ('D', ['A', 'G', 'T', 'R', 'W', 'K', 'D']),
    ('B', ['C', 'G', 'T', 'S', 'Y', 'K', 'B']),
    ('X', ['.']),
    ('N', ['.']) ]

/-- Lookup in the ambiguity table; `none` models Python's `KeyError`. -/
def dnaValue (c : Char) : Option (List Char) :=
  ambiguous_dna_values.lookup c

/-- Regex fragment for one symbol (the `ambiguous_dna_re` dict): a value of
length one is used as is, longer values become a character class `[...]`. -/
def ambiguous_dna_re (c : Char) : Option (List Char) :=
  match dnaValue c with
  | none => none
  | some v => if v.length == 1 then some v else some ('[' :: v ++ [']'])

/-- Direct model of `make_reg_ex(seq)`: concatenation of the per-symbol
regex fragments; `none` when some symbol is not in the table. -/
def make_reg_ex : List Char → Option (List Char)
  | [] => some []
  | c :: rest =>
    match ambiguous_dna_re c, make_reg_ex rest with
    | some f, some r => some (f ++ r)
    | _, _ => none

/-- Model of Python's `str.upper()` on a sequence. -/
def upper (s : List Char) : List Char := s.map Char.toUpper

/-- Sequence with position `i` replaced by `N`:
`seq[:i] + "N" + seq[i + 1:]` in the source. -/
def maskOne (s : List Char) (i : Nat) : List Char :=
  s.take i ++ 'N' :: s.drop (i + 1)

/-- Sequence with positions `i` and `i + 1 + k` replaced by `N`:
`seq[:i] + "N" + seq[i + 1 : i + 1 + k] + "N" + seq[i + k + 2:]`. -/
def maskTwo (s : List Char) (i k : Nat) : List Char :=
  s.take i ++ 'N' :: ((s.drop (i + 1)).take k ++ 'N' :: s.drop (i + k + 2))

/-- Sequence a list of `Option` results, failing on the first `none`
(the generator raises at the first failing `yield`). -/
def mapOption {α β : Type} (f : α → Option β) : List α → Option (List β)
  | [] => some []
  | a :: r =>
    match f a, mapOption f r with
    | some b, some rs => some (b :: rs)
    | _, _ => none

/-- Sequence a list of `Except` results, failing on the first error. -/
def mapExcept {α β : Type} (f : α → Except String β) : List α → Except String (List β)
  | [] => Except.ok []
  | a :: r =>
    match f a with
    | Except.error e => Except.error e
    | Except.ok b =>
      match mapExcept f r with
      | Except.error e => Except.error e
      | Except.ok rs => Except.ok (b :: rs)

/-- Single-position wildcard patterns of `make_reg_ex_mm` (the `mm >= 1`
block): one pattern per position of `s`, in position order. -/
def maskPats1 (s : List Char) (mm : Nat) : Option (List (List Char)) :=
  if 1 ≤ mm then
    mapOption (fun i => make_reg_ex (maskOne s i)) (List.range s.length)
  else some []

/-- Index pairs `(i, k)` enumerated by the two nested loops of the
`mm >= 2` block of `make_reg_ex_mm`. -/
def maskPairs (n : Nat) : List (Nat × Nat) :=
  (List.range n).flatMap (fun i => (List.range (n - (i + 1))).map (fun k => (i, k)))

/-- Two-position wildcard patterns of `make_reg_ex_mm` (the `mm >= 2` block). -/
def maskPats2 (s : List Char) (mm : Nat) : Option (List (List Char)) :=
  if 2 ≤ mm then
    mapOption (fun p => make_reg_ex (maskTwo s p.1 p.2)) (maskPairs s.length)
  else some []

/-- Fuel-indexed model of the recursive generator `make_reg_ex_mm(seq, mm)`.
The generator recurses with budget `mm - i` for `i` in `1..mm`, so any fuel
above `mm` suffices; the fuel only makes the recursion structural.  The
yields appear in generator order: the exact pattern, then for each `i` the
start-anchored patterns `"^" + reg` for the first `i` symbols removed and
the patterns `"$" + reg` for the last `i` symbols removed (the `"$"` is
prepended in the source, faithfully reproduced here), then the single- and
two-position wildcard patterns. -/
def make_reg_ex_mm_aux : Nat → List Char → Nat → Except String (List (List Char))
  | 0, _, _ => Except.error "out of fuel"
  | fuel + 1, seq, mm =>
    if mm > 2 then Except.error "At most 2 mismatches allowed!" else
    let s := upper seq
    match make_reg_ex s with
    | none => Except.error "KeyError"
    | some base =>
      match mapExcept (fun j =>
          match make_reg_ex_mm_aux fuel (s.drop (j + 1)) (mm - (j + 1)),
                make_reg_ex_mm_aux fuel (s.take (s.length - (j + 1))) (mm - (j + 1)) with
          | Except.ok front, Except.ok back =>
            Except.ok ((front.map (fun r => '^' :: r)) ++ (back.map (fun r => '$' :: r)))
          | Except.error e, _ => Except.error e
          | _, Except.error e => Except.error e) (List.range mm) with
      | Except.error e => Except.error e
      | Except.ok bnds =>
        match maskPats1 s mm, maskPats2 s mm with
        | some m1, some m2 => Except.ok ([base] ++ bnds.flatten ++ m1 ++ m2)
        | _, _ => Except.error "KeyError"

/-- Pattern list of `make_reg_ex_mm(seq, mm)`. -/
def make_reg_ex_mm (seq : List Char) (mm : Nat) : Except String (List (List Char)) :=
  make_reg_ex_mm_aux (mm + 1) seq mm

/-- First-occurrence deduplication, modelling the `set()` accumulation of
`load_primers_as_re` (Python's set iteration order is unspecified; we fix
first-occurrence order, and no theorem depends on the order of
equal-length patterns). -/
def dedupAcc : List (List Char) → List (List Char) → List (List Char)
  | [], _ => []
  | a :: r, seen => if a ∈ seen then dedupAcc r seen else a :: dedupAcc r (a :: seen)

/-- Insertion into a list sorted by non-increasing length, before the first
element that is not longer: a stable descending sort step. -/
def insertByLen (a : List Char) : List (List Char) → List (List Char)
  | [] => [a]
  | b :: r => if b.length ≤ a.length then a :: b :: r else b :: insertByLen a r

/-- Stable sort by descending length, modelling
`sorted(..., key=lambda p: -len(p))`. -/
def sortByLenDesc (l : List (List Char)) : List (List Char) :=
  l.foldr insertByLen []

/-- Model of `load_primers_as_re(primer_fasta, mm, rc=False)`: the pattern
strings of all primers are pooled into a set and sorted longest-first
(the returned record count and the final `re.compile` of the `"|"`-join
are modelled by keeping the ordered list of alternatives).  The
reverse-complement branch (`rc=True`) is not needed by any claim and is
not modelled. -/
def load_primers_as_re (primerSeqs : List (List Char)) (mm : Nat) :
    Except String (List (List Char)) :=
  match mapExcept (fun s => make_reg_ex_mm s mm) primerSeqs with
  | Except.error e => Except.error e
  | Except.ok patss => Except.ok (sortByLenDesc (dedupAcc patss.flatten []))

/-- Tokens of the regex fragment generated by the script: start anchor `^`,
end anchor `$`, wildcard `.`, a literal character, a character class. -/
inductive Tok where
  | start : Tok
  | stop : Tok
  | any : Tok
  | lit : Char → Tok
  | cls : List Char → Tok
deriving DecidableEq

/-- Tokenizer for the generated pattern strings (the flag is true inside a
`[...]` class, whose member characters are all literal). -/
def parseToks : List Char → Bool → List Char → List Tok
  | [], _, _ => []
  | c :: r, true, acc =>
    if c = ']' then Tok.cls acc :: parseToks r false []
    else parseToks r true (acc ++ [c])
  | c :: r, false, acc =>
    if c = '^' then Tok.start :: parseToks r false acc
    else if c = '$' then Tok.stop :: parseToks r false acc
    else if c = '.' then Tok.any :: parseToks r false acc
    else if c = '[' then parseToks r true []
    else Tok.lit c :: parseToks r false acc

/-- Compile one alternative of the joined regex into tokens. -/
def compileRegex (p : List Char) : List Tok := parseToks p false []

/-- Model of Python `re` matching of one alternative at position `p` of `s`:
`^` matches only at position 0, `$` only at the end of the string (or
before a final newline), `.` matches any character except newline, and a
class matches any of its member characters; returns the end position. -/
def matchToks (s : List Char) : List Tok → Nat → Option Nat
  | [], p => some p
  | Tok.start :: ts, p => if p = 0 then matchToks s ts p else none
  | Tok.stop :: ts, p =>
    if p = s.length ∨ (p + 1 = s.length ∧ s[p]? = some '\n') then matchToks s ts p
    else none
  | Tok.any :: ts, p =>
    match s[p]? with
    | some c => if c = '\n' then none else matchToks s ts (p + 1)
    | none => none
  | Tok.lit c :: ts, p => if s[p]? = some c then matchToks s ts (p + 1) else none
  | Tok.cls cs :: ts, p =>
    match s[p]? with
    | some c => if c ∈ cs then matchToks s ts (p + 1) else none
    | none => none

/-- Try the alternatives in order at one start position (Python alternation
is first-match-wins at a fixed position). -/
def matchFirstAt (pats : List (List Tok)) (s : List Char) (p : Nat) : Option Nat :=
  match pats with
  | [] => none
  | t :: rest =>
    match matchToks s t p with
    | some e => some e
    | none => matchFirstAt rest s p

/-- Scan start positions left to right (the fuel counts the remaining
candidate start positions, `s.length + 1` in total). -/
def searchAux (pats : List (List Tok)) (s : List Char) : Nat → Nat → Option (Nat × Nat)
  | _, 0 => none
  | p, fuel + 1 =>
    match matchFirstAt pats s p with
    | some e => some (p, e)
    | none => searchAux pats s (p + 1) fuel

/-- Model of `re.search` on the alternation of `pats`: the matched span
`[start, end)` at the leftmost start position where some alternative
matches, else `none`. -/
def re_search (pats : List (List Tok)) (s : List Char) : Option (Nat × Nat) :=
  searchAux pats s 0 (s.length + 1)

/-- Compile every alternative of the joined pattern. -/
def compileAll (pats : List (List Char)) : List (List Tok) :=
  pats.map compileRegex

/-- The consuming tokens the generated pattern bodies are built from: a
wildcard, a non-newline literal, or a character class without newline;
none of them is an anchor and none of them accepts a newline. -/
def dnaTok : Tok → Prop
  | Tok.start => False
  | Tok.stop => False
  | Tok.any => True
  | Tok.lit ch => ch ≠ '\n'
  | Tok.cls cs => '\n' ∉ cs

example : make_reg_ex ['A', 'N', 'M'] =
    some ['A', '.', '[', 'A', 'C', 'M', ']'] := by decide

example : compileRegex ['^', 'A', '.', '[', 'A', 'C', ']'] =
    [Tok.start, Tok.lit 'A', Tok.any, Tok.cls ['A', 'C']] := by decide

/-- Plain substring search: the least index at which `needle` occurs as a
contiguous sublist of the haystack (Python's `str.find`), else `none`. -/
def str_find (needle : List Char) : List Char → Option Nat
  | [] => if needle = [] then some 0 else none
  | c :: r =>
    if needle.isPrefixOf (c :: r) then some 0
    else (str_find needle r).map (fun i => i + 1)

/-- FASTQ record as delivered by `fastqReader`: an identifier, a sequence
and a per-base quality string. -/
structure FqRecord where
  identifier : List Char
  sequence : List Char
  quality : List Char
deriving DecidableEq

/-- FASTA record as delivered by `fastaReader`. -/
structure FaRecord where
  identifier : List Char
  sequence : List Char
deriving DecidableEq

/-- SFF record view: the raw read, its qualities and flow data, the
quality-clip window `[clip_qual_left, clip_qual_right)`, and the name.
Only the two clip values are ever assigned by the script. -/
structure SffRecord where
  name : List Char
  seq : List Char
  quals : List Nat
  flows : List Nat
  clip_qual_left : Nat
  clip_qual_right : Nat
deriving DecidableEq

/-- Run counters of the script (`clipped`, `short_clipped`, `negs`,
`short_neg` in the source). -/
structure Counters where
  clipped : Nat
  short_clipped : Nat
  negs : Nat
  short_neg : Nat
deriving DecidableEq

/-- All four counters zero, the initial state of a run. -/
def Counters.zero : Counters := ⟨0, 0, 0, 0⟩

/-- Sum of the four counters. -/
def csum (c : Counters) : Nat := c.clipped + c.short_clipped + c.negs + c.short_neg

/-- Body of the forward FASTQ loop: uppercase the sequence, search; on a
match cut everything up to and including the primer (`cut = result.end()`),
keep only if the remainder reaches `min_len`; on no match apply the
`keep_negatives` policy to the unmodified record.  Returns the updated
counters and the emitted record, if any. -/
def fastq_forward_step (pats : List (List Tok)) (min_len : Nat) (keep_negatives : Bool)
    (c : Counters) (record : FqRecord) : Counters × Option FqRecord :=
  let seq := upper record.sequence
  match re_search pats seq with
  | some (_, e) =>
    let cut := e
    let newseq := seq.drop cut
    if min_len ≤ newseq.length then
      ({ c with clipped := c.clipped + 1 },
       some { record with sequence := newseq, quality := record.quality.drop cut })
    else ({ c with short_clipped := c.short_clipped + 1 }, none)
  | none =>
    if keep_negatives then
      if min_len ≤ record.sequence.length then
        ({ c with negs := c.negs + 1 }, some record)
      else ({ c with short_neg := c.short_neg + 1 }, none)
    else (c, none)

/-- Body of the reverse FASTQ loop: on a match keep everything strictly
before the primer (`cut = result.start()`). -/
def fastq_reverse_step (pats : List (List Tok)) (min_len : Nat) (keep_negatives : Bool)
    (c : Counters) (record : FqRecord) : Counters × Option FqRecord :=
  let seq := upper record.sequence
  match re_search pats seq with
  | some (s, _) =>
    let cut := s
    let newseq := seq.take cut
    if min_len ≤ newseq.length then
      ({ c with clipped := c.clipped + 1 },
       some { record with sequence := newseq, quality := record.quality.take cut })
    else ({ c with short_clipped := c.short_clipped + 1 }, none)
  | none =>
    if keep_negatives then
      if min_len ≤ record.sequence.length then
        ({ c with negs := c.negs + 1 }, some record)
      else ({ c with short_neg := c.short_neg + 1 }, none)
    else (c, none)

/-- Body of the forward FASTA loop; identical to the FASTQ one except that
there are no qualities to slice. -/
def fasta_forward_step (pats : List (List Tok)) (min_len : Nat) (keep_negatives : Bool)
    (c : Counters) (record : FaRecord) : Counters × Option FaRecord :=
  let seq := upper record.sequence
  match re_search pats seq with
  | some (_, e) =>
    let cut := e
    let newseq := seq.drop cut
    if min_len ≤ newseq.length then
      ({ c with clipped := c.clipped + 1 }, some { record with sequence := newseq })
    else ({ c with short_clipped := c.short_clipped + 1 }, none)
  | none =>
    if keep_negatives then
      if min_len ≤ record.sequence.length then
        ({ c with negs := c.negs + 1 }, some record)
      else ({ c with short_neg := c.short_neg + 1 }, none)
    else (c, none)

/-- Body of the reverse FASTA loop. -/
def fasta_reverse_step (pats : List (List Tok)) (min_len : Nat) (keep_negatives : Bool)
    (c : Counters) (record : FaRecord) : Counters × Option FaRecord :=
  let seq := upper record.sequence
  match re_search pats seq with
  | some (s, _) =>
    let cut := s
    let newseq := seq.take cut
    if min_len ≤ newseq.length then
      ({ c with clipped := c.clipped + 1 }, some { record with sequence := newseq })
    else ({ c with short_clipped := c.short_clipped + 1 }, none)
  | none =>
    if keep_negatives then
      if min_len ≤ record.sequence.length then
        ({ c with negs := c.negs + 1 }, some record)
      else ({ c with short_neg := c.short_neg + 1 }, none)
    else (c, none)

/-- Body of the SFF forward `process` generator: search the uppercased
quality-clipped window `str(record.seq)[left_clip:right_clip]`; on a
sufficiently long match move only the left clip forward past the primer
(`clip_qual_left = left_clip + result.end()`); the record object is
otherwise passed through untouched. -/
def sff_forward_step (pats : List (List Tok)) (min_len : Nat) (keep_negatives : Bool)
    (c : Counters) (record : SffRecord) : Counters × Option SffRecord :=
  let left_clip := record.clip_qual_left
  let right_clip := record.clip_qual_right
  let seq := upper ((record.seq.drop left_clip).take (right_clip - left_clip))
  match re_search pats seq with
  | some (_, e) =>
    if min_len ≤ seq.length - e then
      ({ c with clipped := c.clipped + 1 },
       some { record with clip_qual_left := left_clip + e })
    else ({ c with short_clipped := c.short_clipped + 1 }, none)
  | none =>
    if keep_negatives then
      if min_len ≤ seq.length then
        ({ c with negs := c.negs + 1 }, some record)
      else ({ c with short_neg := c.short_neg + 1 }, none)
    else (c, none)

/-- Body of the SFF reverse `process` generator: on a match move only the
right clip back to just before the primer
(`clip_qual_right = left_clip + result.start()`). -/
def sff_reverse_step (pats : List (List Tok)) (min_len : Nat) (keep_negatives : Bool)
    (c : Counters) (record : SffRecord) : Counters × Option SffRecord :=
  let left_clip := record.clip_qual_left
  let right_clip := record.clip_qual_right
  let seq := upper ((record.seq.drop left_clip).take (right_clip - left_clip))
  match re_search pats seq with
  | some (s, _) =>
    let new_len := s
    if min_len ≤ new_len then
      ({ c with clipped := c.clipped + 1 },
       some { record with clip_qual_right := left_clip + new_len })
    else ({ c with short_clipped := c.short_clipped + 1 }, none)
  | none =>
    if keep_negatives then
      if min_len ≤ seq.length then
        ({ c with negs := c.negs + 1 }, some record)
      else ({ c with short_neg := c.short_neg + 1 }, none)
    else (c, none)

/-- Stream loop: run a per-record step over all records, threading the
counters and collecting the emitted records in order. -/
def runStream {R : Type} (step : Counters → R → Counters × Option R) :
    Counters → List R → Counters × List R
  | c, [] => (c, [])
  | c, r :: rs =>
    let (c', o) := step c r
    let (c'', outs) := runStream step c' rs
    (c'', match o with | some r' => r' :: outs | none => outs)

/-! ### Basic character and list facts -/

theorem charOfNat_toNat {m : Nat} (h2 : m < 55296) : (Char.ofNat m).toNat = m := by
  have hv : m.isValidChar := Or.inl (by omega)
  simp only [Char.ofNat, hv, dif_pos, Char.ofNatAux, Char.toNat]
  rfl

theorem toUpper_toUpper (c : Char) : c.toUpper.toUpper = c.toUpper := by
  show Char.toUpper (Char.toUpper c) = Char.toUpper c
  unfold Char.toUpper
  by_cases h : c.toNat ≥ 97 ∧ c.toNat ≤ 122
  · have ht : (Char.ofNat (c.toNat - 32)).toNat = c.toNat - 32 := charOfNat_toNat (by omega)
    simp only [if_pos h, ht]
    rw [if_neg (by omega)]
  · simp only [if_neg h]

theorem upper_upper (l : List Char) : upper (upper l) = upper l := by
  simp only [upper, List.map_map]
  exact List.map_congr_left (fun c _ => toUpper_toUpper c)

theorem length_upper (l : List Char) : (upper l).length = l.length := by
  simp [upper]

theorem upper_eq_self {l : List Char} (h : ∀ ch ∈ l, ch.toUpper = ch) : upper l = l := by
  simp only [upper]
  exact List.map_congr_left h |>.trans (List.map_id l)

theorem prefix_getElem? {l t : List Char} (h : l <+: t) {k : Nat} (hk : k < l.length) :
    t[k]? = l[k]? := by
  obtain ⟨tail, rfl⟩ := h
  rw [List.getElem?_append, if_pos hk]

/-! ### Matching lemmas for the regex model -/

theorem matchToks_bounds (s : List Char) (ts : List Tok) :
    ∀ p e, matchToks s ts p = some e → p ≤ e ∧ (e = p ∨ e ≤ s.length) := by
  induction ts with
  | nil =>
    intro p e h
    simp only [matchToks, Option.some.injEq] at h
    omega
  | cons t ts ih =>
    intro p e h
    have hlt : ∀ q, s[q]?.isSome → q < s.length := by
      intro q hq
      by_contra hge
      rw [List.getElem?_eq_none (by omega)] at hq
      simp at hq
    cases t with
    | start =>
      simp only [matchToks] at h
      split at h
      · exact ih p e h
      · exact absurd h (by simp)
    | stop =>
      simp only [matchToks] at h
      split at h
      · exact ih p e h
      · exact absurd h (by simp)
    | any =>
      simp only [matchToks] at h
      split at h
      next c hc =>
        split at h
        · exact absurd h (by simp)
        · have hp := hlt p (by simp [hc])
          have := ih (p + 1) e h
          omega
      next => exact absurd h (by simp)
    | lit c =>
      simp only [matchToks] at h
      split at h
      next hc =>
        have hp := hlt p (by simp [hc])
        have := ih (p + 1) e h
        omega
      next => exact absurd h (by simp)
    | cls cs =>
      simp only [matchToks] at h
      split at h
      next c hc =>
        split at h
        · have hp := hlt p (by simp [hc])
          have := ih (p + 1) e h
          omega
        · exact absurd h (by simp)
      next => exact absurd h (by simp)

theorem matchFirstAt_none_iff (pats : List (List Tok)) (s : List Char) (p : Nat) :
    matchFirstAt pats s p = none ↔ ∀ pat ∈ pats, matchToks s pat p = none := by
  induction pats with
  | nil => simp [matchFirstAt]
  | cons t rest ih =>
    simp only [matchFirstAt]
    cases h : matchToks s t p with
    | some e => simp [h]
    | none =>
      simp only [List.mem_cons]
      constructor
      · intro hr pat hpat
        rcases hpat with rfl | hpat
        · exact h
        · exact (ih.mp hr) pat hpat
      · intro hall
        exact ih.mpr (fun pat hpat => hall pat (Or.inr hpat))

theorem matchFirstAt_some (pats : List (List Tok)) (s : List Char) (p e : Nat)
    (h : matchFirstAt pats s p = some e) : ∃ pat ∈ pats, matchToks s pat p = some e := by
  induction pats with
  | nil => simp [matchFirstAt] at h
  | cons t rest ih =>
    simp only [matchFirstAt] at h
    cases ht : matchToks s t p with
    | some e' =>
      rw [ht] at h
      exact ⟨t, List.mem_cons_self t rest, by simpa using h ▸ ht⟩
    | none =>
      rw [ht] at h
      obtain ⟨pat, hpat, hm⟩ := ih h
      exact ⟨pat, List.mem_cons_of_mem t hpat, hm⟩

theorem searchAux_some (pats : List (List Tok)) (s : List Char) :
    ∀ fuel p a b, searchAux pats s p fuel = some (a, b) →
      p ≤ a ∧ a < p + fuel ∧ matchFirstAt pats s a = some b ∧
        ∀ q, p ≤ q → q < a → matchFirstAt pats s q = none := by
  intro fuel
  induction fuel with
  | zero => intro p a b h; simp [searchAux] at h
  | succ fuel ih =>
    intro p a b h
    simp only [searchAux] at h
    cases hm : matchFirstAt pats s p with
    | some e =>
      rw [hm] at h
      simp only [Option.some.injEq, Prod.mk.injEq] at h
      obtain ⟨rfl, rfl⟩ := h
      exact ⟨Nat.le_refl _, by omega, hm, fun q h1 h2 => absurd (Nat.lt_of_le_of_lt h1 h2) (by omega)⟩
    | none =>
      rw [hm] at h
      obtain ⟨h1, h2, h3, h4⟩ := ih (p + 1) a b h
      refine ⟨by omega, by omega, h3, fun q hq1 hq2 => ?_⟩
      rcases Nat.eq_or_lt_of_le hq1 with rfl | hq
      · exact hm
      · exact h4 q hq hq2

theorem re_search_some (pats : List (List Tok)) (s : List Char) (a b : Nat)
    (h : re_search pats s = some (a, b)) :
    a ≤ b ∧ a ≤ s.length ∧ b ≤ s.length ∧ matchFirstAt pats s a = some b ∧
      ∀ q, q < a → matchFirstAt pats s q = none := by
  obtain ⟨_, h2, h3, h4⟩ := searchAux_some pats s (s.length + 1) 0 a b h
  obtain ⟨pat, _, hpat⟩ := matchFirstAt_some pats s a b h3
  obtain ⟨hab, hb⟩ := matchToks_bounds s pat a b hpat
  refine ⟨hab, by omega, by omega, h3, fun q hq => h4 q (Nat.zero_le q) hq⟩

theorem searchAux_isSome (pats : List (List Tok)) (s : List Char) :
    ∀ fuel p q, p ≤ q → q < p + fuel → (matchFirstAt pats s q).isSome →
      (searchAux pats s p fuel).isSome := by
  intro fuel
  induction fuel with
  | zero => intro p q h1 h2; omega
  | succ fuel ih =>
    intro p q h1 h2 h3
    simp only [searchAux]
    cases hm : matchFirstAt pats s p with
    | some e => simp
    | none =>
      rcases Nat.eq_or_lt_of_le h1 with rfl | hq
      · rw [hm] at h3; simp at h3
      · exact ih (p + 1) q hq (by omega) h3

theorem re_search_isSome_of_match (pats : List (List Tok)) (s : List Char) (pat : List Tok)
    (hpat : pat ∈ pats) (q e : Nat) (hq : q ≤ s.length) (h : matchToks s pat q = some e) :
    (re_search pats s).isSome := by
  apply searchAux_isSome pats s (s.length + 1) 0 q (Nat.zero_le q) (by omega)
  cases hm : matchFirstAt pats s q with
  | some e' => simp
  | none => exact absurd ((matchFirstAt_none_iff pats s q).mp hm pat hpat) (by simp [h])

/-! ### Clip decision and frame theorems -/

/-- C2: when the uppercased sequence of a FASTQ record yields match span
`[s, e)`, the forward loop keeps `[e, len)` (length `len - e`) and the
reverse loop keeps `[0, s)` (length `s`); the record is emitted as clipped
exactly when the kept length reaches `min_len`, and otherwise the
short-after-clip counter is incremented and nothing is emitted. -/
theorem C2_orientation_cut (pats : List (List Tok)) (min_len : Nat) (keep : Bool)
    (c : Counters) (r : FqRecord) (s e : Nat)
    (h : re_search pats (upper r.sequence) = some (s, e)) :
    (fastq_forward_step pats min_len keep c r =
      if min_len ≤ r.sequence.length - e then
        ({ c with clipped := c.clipped + 1 },
         some { r with sequence := (upper r.sequence).drop e, quality := r.quality.drop e })
      else ({ c with short_clipped := c.short_clipped + 1 }, none)) ∧
    ((upper r.sequence).drop e).length = r.sequence.length - e ∧
    (fastq_reverse_step pats min_len keep c r =
      if min_len ≤ s then
        ({ c with clipped := c.clipped + 1 },
         some { r with sequence := (upper r.sequence).take s, quality := r.quality.take s })
      else ({ c with short_clipped := c.short_clipped + 1 }, none)) ∧
    ((upper r.sequence).take s).length = s := by
  obtain ⟨hab, ha, hb, -, -⟩ := re_search_some pats (upper r.sequence) s e h
  have hlen : (upper r.sequence).length = r.sequence.length := length_upper _
  have hdl : ((upper r.sequence).drop e).length = r.sequence.length - e := by
    simp [hlen]
  have htl : ((upper r.sequence).take s).length = s := by
    simp only [List.length_take, hlen]
    omega
  refine ⟨?_, hdl, ?_, htl⟩
  · unfold fastq_forward_step
    simp only [h, hdl]
  · unfold fastq_reverse_step
    simp only [h, htl]

theorem C2_orientation_cut_witness :
    fastq_forward_step (compileAll [['A', 'C', 'G', 'T']]) 3 false Counters.zero
        ⟨[], ['G', 'G', 'A', 'C', 'G', 'T', 'T', 'T', 'T', 'A'], ['q', 'q', 'q', 'q', 'q', 'q', 'q', 'q', 'q', 'q']⟩ =
      ({ Counters.zero with clipped := 1 },
       some ⟨[], ['T', 'T', 'T', 'A'], ['q', 'q', 'q', 'q']⟩) := by
  have := (C2_orientation_cut (compileAll [['A', 'C', 'G', 'T']]) 3 false Counters.zero
    ⟨[], ['G', 'G', 'A', 'C', 'G', 'T', 'T', 'T', 'T', 'A'], ['q', 'q', 'q', 'q', 'q', 'q', 'q', 'q', 'q', 'q']⟩
    2 6 (by decide)).1
  rw [this]
  decide

/-- C5: on a record with no primer match, the loop with `keep_negatives`
disabled emits nothing and leaves the counters untouched whatever the
record's length, while with the flag enabled the unmodified record is
emitted exactly when its length reaches `min_len` (counted in `negs`),
and otherwise counted in `short_neg` and dropped; shown for both FASTQ
orientations and for the SFF forward generator. -/
theorem C5_keep_unmatched_policy (pats : List (List Tok)) (min_len : Nat)
    (c : Counters) (r : FqRecord)
    (h : re_search pats (upper r.sequence) = none) :
    fastq_forward_step pats min_len false c r = (c, none) ∧
    fastq_reverse_step pats min_len false c r = (c, none) ∧
    fastq_forward_step pats min_len true c r =
      (if min_len ≤ r.sequence.length then ({ c with negs := c.negs + 1 }, some r)
       else ({ c with short_neg := c.short_neg + 1 }, none)) ∧
    fastq_reverse_step pats min_len true c r =
      (if min_len ≤ r.sequence.length then ({ c with negs := c.negs + 1 }, some r)
       else ({ c with short_neg := c.short_neg + 1 }, none)) ∧
    ∀ sr : SffRecord,
      re_search pats (upper ((sr.seq.drop sr.clip_qual_left).take
          (sr.clip_qual_right - sr.clip_qual_left))) = none →
      sff_forward_step pats min_len false c sr = (c, none) ∧
      sff_forward_step pats min_len true c sr =
        (if min_len ≤ ((sr.seq.drop sr.clip_qual_left).take
              (sr.clip_qual_right - sr.clip_qual_left)).length then
          ({ c with negs := c.negs + 1 }, some sr)
         else ({ c with short_neg := c.short_neg + 1 }, none)) := by
  refine ⟨?_, ?_, ?_, ?_, ?_⟩
  · unfold fastq_forward_step; simp only [h]; rfl
  · unfold fastq_reverse_step; simp only [h]; rfl
  · unfold fastq_forward_step; simp only [h]; rfl
  · unfold fastq_reverse_step; simp only [h]; rfl
  · intro sr hsr
    constructor
    · unfold sff_forward_step; simp only [hsr]; rfl
    · unfold sff_forward_step; simp only [hsr, length_upper]; rfl

theorem C5_keep_unmatched_policy_witness :
    fastq_forward_step (compileAll [['A', 'C', 'G', 'T']]) 2 false Counters.zero
        ⟨[], ['T', 'T', 'T'], ['q', 'q', 'q']⟩ = (Counters.zero, none) :=
  (C5_keep_unmatched_policy (compileAll [['A', 'C', 'G', 'T']]) 2 Counters.zero
    ⟨[], ['T', 'T', 'T'], ['q', 'q', 'q']⟩ (by decide)).1

/-- C9: an emitted SFF record differs from the input record at most in the
clip-window boundaries: the forward generator can change only
`clip_qual_left` and the reverse generator only `clip_qual_right`; the raw
sequence, the qualities, the flow data, the name and the opposite clip
value are those of the input record. -/
theorem C9_sff_frame (pats : List (List Tok)) (min_len : Nat) (keep : Bool)
    (c : Counters) (r r' : SffRecord) :
    ((sff_forward_step pats min_len keep c r).2 = some r' →
      r'.seq = r.seq ∧ r'.quals = r.quals ∧ r'.flows = r.flows ∧ r'.name = r.name ∧
        r'.clip_qual_right = r.clip_qual_right) ∧
    ((sff_reverse_step pats min_len keep c r).2 = some r' →
      r'.seq = r.seq ∧ r'.quals = r.quals ∧ r'.flows = r.flows ∧ r'.name = r.name ∧
        r'.clip_qual_left = r.clip_qual_left) := by
  constructor
  · intro h
    unfold sff_forward_step at h
    rcases hm : re_search pats
        (upper ((r.seq.drop r.clip_qual_left).take (r.clip_qual_right - r.clip_qual_left))) with
      _ | ⟨s, e⟩ <;> simp only [hm] at h
    · split at h
      · split at h
        · simp only [Option.some.injEq] at h
          subst h
          exact ⟨rfl, rfl, rfl, rfl, rfl⟩
        · simp at h
      · simp at h
    · split at h
      · simp only [Option.some.injEq] at h
        subst h
        exact ⟨rfl, rfl, rfl, rfl, rfl⟩
      · simp at h
  · intro h
    unfold sff_reverse_step at h
    rcases hm : re_search pats
        (upper ((r.seq.drop r.clip_qual_left).take (r.clip_qual_right - r.clip_qual_left))) with
      _ | ⟨s, e⟩ <;> simp only [hm] at h
    · split at h
      · split at h
        · simp only [Option.some.injEq] at h
          subst h
          exact ⟨rfl, rfl, rfl, rfl, rfl⟩
        · simp at h
      · simp at h
    · split at h
      · simp only [Option.some.injEq] at h
        subst h
        exact ⟨rfl, rfl, rfl, rfl, rfl⟩
      · simp at h

theorem C9_sff_frame_witness :
    let r : SffRecord := ⟨['r', '1'], ['T', 'T', 'A', 'A', 'C', 'C', 'G', 'G', 'T', 'T'],
      [20, 20, 20, 20, 20, 20, 20, 20, 20, 20], [100, 101], 2, 10⟩
    let r' : SffRecord := ⟨['r', '1'], ['T', 'T', 'A', 'A', 'C', 'C', 'G', 'G', 'T', 'T'],
      [20, 20, 20, 20, 20, 20, 20, 20, 20, 20], [100, 101], 6, 10⟩
    r'.seq = r.seq ∧ r'.quals = r.quals ∧ r'.flows = r.flows ∧ r'.name = r.name ∧
      r'.clip_qual_right = r.clip_qual_right :=
  (C9_sff_frame (compileAll [['A', 'A', 'C', 'C']]) 0 false Counters.zero
    ⟨['r', '1'], ['T', 'T', 'A', 'A', 'C', 'C', 'G', 'G', 'T', 'T'],
      [20, 20, 20, 20, 20, 20, 20, 20, 20, 20], [100, 101], 2, 10⟩
    ⟨['r', '1'], ['T', 'T', 'A', 'A', 'C', 'C', 'G', 'G', 'T', 'T'],
      [20, 20, 20, 20, 20, 20, 20, 20, 20, 20], [100, 101], 6, 10⟩).1 (by decide)

/-- C10: a FASTA or FASTQ record emitted as clipped carries the uppercased
form of the kept region (forward: the suffix after the match end; reverse:
the prefix before the match start), while a record emitted under the
keep-unmatched policy is passed through with its original sequence and its
original case. -/
theorem C10_case_handling (pats : List (List Tok)) (min_len : Nat) (keep : Bool)
    (c : Counters) :
    (∀ (r r' : FqRecord) (s e : Nat), re_search pats (upper r.sequence) = some (s, e) →
      (fastq_forward_step pats min_len keep c r).2 = some r' →
      r'.sequence = upper (r.sequence.drop e)) ∧
    (∀ (r r' : FqRecord) (s e : Nat), re_search pats (upper r.sequence) = some (s, e) →
      (fastq_reverse_step pats min_len keep c r).2 = some r' →
      r'.sequence = upper (r.sequence.take s)) ∧
    (∀ (r r' : FaRecord) (s e : Nat), re_search pats (upper r.sequence) = some (s, e) →
      (fasta_forward_step pats min_len keep c r).2 = some r' →
      r'.sequence = upper (r.sequence.drop e)) ∧
    (∀ (r r' : FaRecord) (s e : Nat), re_search pats (upper r.sequence) = some (s, e) →
      (fasta_reverse_step pats min_len keep c r).2 = some r' →
      r'.sequence = upper (r.sequence.take s)) ∧
    (∀ (r r' : FqRecord), re_search pats (upper r.sequence) = none →
      (fastq_forward_step pats min_len keep c r).2 = some r' → r' = r) ∧
    (∀ (r r' : FaRecord), re_search pats (upper r.sequence) = none →
      (fasta_forward_step pats min_len keep c r).2 = some r' → r' = r) := by
  refine ⟨?_, ?_, ?_, ?_, ?_, ?_⟩
  · intro r r' s e hm h
    unfold fastq_forward_step at h
    simp only [hm] at h
    split at h
    · simp only [Option.some.injEq] at h
      subst h
      simp [upper, List.map_drop]
    · simp at h
  · intro r r' s e hm h
    unfold fastq_reverse_step at h
    simp only [hm] at h
    split at h
    · simp only [Option.some.injEq] at h
      subst h
      simp [upper, List.map_take]
    · simp at h
  · intro r r' s e hm h
    unfold fasta_forward_step at h
    simp only [hm] at h
    split at h
    · simp only [Option.some.injEq] at h
      subst h
      simp [upper, List.map_drop]
    · simp at h
  · intro r r' s e hm h
    unfold fasta_reverse_step at h
    simp only [hm] at h
    split at h
    · simp only [Option.some.injEq] at h
      subst h
      simp [upper, List.map_take]
    · simp at h
  · intro r r' hm h
    unfold fastq_forward_step at h
    simp only [hm] at h
    split at h
    · split at h
      · simp only [Option.some.injEq] at h
        exact h.symm
      · simp at h
    · simp at h
  · intro r r' hm h
    unfold fasta_forward_step at h
    simp only [hm] at h
    split at h
    · split at h
      · simp only [Option.some.injEq] at h
        exact h.symm
      · simp at h
    · simp at h

theorem C10_case_handling_witness :
    (⟨[], ['C', 'G', 'T', 'A'], ['q', 'q', 'q', 'q']⟩ : FqRecord).sequence =
      upper ((['t', 'a', 'a', 'c', 'g', 't', 'c', 'g', 't', 'a'] : List Char).drop 6) :=
  (C10_case_handling (compileAll [['A', 'C', 'G', 'T']]) 0 false Counters.zero).1
    ⟨[], ['t', 'a', 'a', 'c', 'g', 't', 'c', 'g', 't', 'a'], ['q', 'q', 'q', 'q', 'q', 'q', 'q', 'q', 'q', 'q']⟩
    ⟨[], ['C', 'G', 'T', 'A'], ['q', 'q', 'q', 'q']⟩ 2 6 (by decide) (by decide)

/-! ### Statistics counters -/

/-- C7 counterexample: with the keep-unmatched flag disabled, a processed
record with no primer match increments none of the four counters, so after
processing one such record the counter sum is 0, not 1 as the claim
requires for every flag combination. -/
theorem C7_counterexample :
    load_primers_as_re [['A', 'C', 'G', 'T']] 0 = Except.ok [['A', 'C', 'G', 'T']] ∧
    ([(⟨[], ['T', 'T', 'T', 'T'], ['q', 'q', 'q', 'q']⟩ : FqRecord)]).length = 1 ∧
    csum (runStream (fastq_forward_step (compileAll [['A', 'C', 'G', 'T']]) 0 false)
      Counters.zero [⟨[], ['T', 'T', 'T', 'T'], ['q', 'q', 'q', 'q']⟩]).1 = 0 :=
  ⟨rfl, rfl, by decide⟩

theorem csum_forward_step_keep (pats : List (List Tok)) (min_len : Nat)
    (c : Counters) (r : FqRecord) :
    csum (fastq_forward_step pats min_len true c r).1 = csum c + 1 := by
  unfold fastq_forward_step
  rcases hm : re_search pats (upper r.sequence) with _ | ⟨s, e⟩ <;> simp only [hm]
  · show csum (if min_len ≤ r.sequence.length then
        ({ c with negs := c.negs + 1 }, some r)
      else ({ c with short_neg := c.short_neg + 1 }, none)).1 = csum c + 1
    split <;> simp [csum] <;> omega
  · show csum (if min_len ≤ ((upper r.sequence).drop e).length then
        ({ c with clipped := c.clipped + 1 },
         some { r with sequence := (upper r.sequence).drop e, quality := r.quality.drop e })
      else ({ c with short_clipped := c.short_clipped + 1 }, none)).1 = csum c + 1
    split <;> simp [csum] <;> omega

theorem csum_reverse_step_keep (pats : List (List Tok)) (min_len : Nat)
    (c : Counters) (r : FqRecord) :
    csum (fastq_reverse_step pats min_len true c r).1 = csum c + 1 := by
  unfold fastq_reverse_step
  rcases hm : re_search pats (upper r.sequence) with _ | ⟨s, e⟩ <;> simp only [hm]
  · show csum (if min_len ≤ r.sequence.length then
        ({ c with negs := c.negs + 1 }, some r)
      else ({ c with short_neg := c.short_neg + 1 }, none)).1 = csum c + 1
    split <;> simp [csum] <;> omega
  · show csum (if min_len ≤ ((upper r.sequence).take s).length then
        ({ c with clipped := c.clipped + 1 },
         some { r with sequence := (upper r.sequence).take s, quality := r.quality.take s })
      else ({ c with short_clipped := c.short_clipped + 1 }, none)).1 = csum c + 1
    split <;> simp [csum] <;> omega

theorem csum_runStream {R : Type} (step : Counters → R → Counters × Option R)
    (hstep : ∀ c r, csum (step c r).1 = csum c + 1) :
    ∀ (rs : List R) (c : Counters), csum (runStream step c rs).1 = csum c + rs.length := by
  intro rs
  induction rs with
  | nil => intro c; simp [runStream]
  | cons r rs ih =>
    intro c
    unfold runStream
    rcases hsr : step c r with ⟨c', o⟩
    rcases hrr : runStream step c' rs with ⟨c'', outs⟩
    have h1 : csum c' = csum c + 1 := by
      have h := hstep c r
      rw [hsr] at h
      exact h
    have h2 : csum c'' = csum c' + rs.length := by
      have h := ih c'
      rw [hrr] at h
      exact h
    simp only [hsr, hrr]
    show csum c'' = csum c + (r :: rs).length
    simp only [List.length_cons]
    omega

/-- C7 amended: with the keep-unmatched flag enabled, each processed FASTQ
record increments exactly one of the four counters (in either orientation),
so the counter sum grows by the number of records processed; with the flag
disabled, a no-match record increments no counter (see the
counterexample). -/
theorem C7_amended (pats : List (List Tok)) (min_len : Nat) (c : Counters)
    (rs : List FqRecord) :
    csum (runStream (fastq_forward_step pats min_len true) c rs).1 = csum c + rs.length ∧
    csum (runStream (fastq_reverse_step pats min_len true) c rs).1 = csum c + rs.length :=
  ⟨csum_runStream _ (csum_forward_step_keep pats min_len) rs c,
   csum_runStream _ (csum_reverse_step_keep pats min_len) rs c⟩

/-! ### End-truncation anchoring (C1) -/

theorem stop_then_consuming_never_matches (s : List Char) (hs : '\n' ∉ s) (t : Tok)
    (ht : t = Tok.any ∨ (∃ ch, t = Tok.lit ch) ∨ (∃ cs, t = Tok.cls cs))
    (ts : List Tok) (p : Nat) :
    matchToks s (Tok.stop :: t :: ts) p = none := by
  unfold matchToks
  split
  · next h =>
    have hnone : s[p]? = none := by
      rcases h with h | ⟨h1, h2⟩
      · exact List.getElem?_eq_none (by omega)
      · exact absurd (List.getElem?_mem h2) hs
    rcases ht with rfl | ⟨ch, rfl⟩ | ⟨cs, rfl⟩ <;> simp [matchToks, hnone]
  · rfl

/-- C1 (code bug): the generator emits the end-truncated pattern for the
primer `CCGACTCGAG` with its last base removed as `"$CCGACTCGA"` — the `$`
anchor is prepended instead of appended — and in Python regex a pattern
that requires end-of-string *before* its body can never match, so a read
whose tail is the primer with the last base running off the end is NOT
reported as a match, although both the claim and the module docstring
promise that it is. -/
theorem C1_end_truncation_bug :
    (('$' :: ['C', 'C', 'G', 'A', 'C', 'T', 'C', 'G', 'A']) ∈
      (make_reg_ex_mm ['C', 'C', 'G', 'A', 'C', 'T', 'C', 'G', 'A', 'G'] 1).toOption.getD []) ∧
    (load_primers_as_re [['C', 'C', 'G', 'A', 'C', 'T', 'C', 'G', 'A', 'G']] 1).toOption.map
        (fun ps => re_search (compileAll ps)
          ['T', 'T', 'T', 'T', 'T', 'T', 'C', 'C', 'G', 'A', 'C', 'T', 'C', 'G', 'A']) =
      some none := by
  decide

/-! ### Mismatch budget bound (C8) -/

theorem lookup_isSome_mem_keys (l : List (Char × List Char)) (a : Char)
    (h : (l.lookup a).isSome) : a ∈ l.map Prod.fst := by
  induction l with
  | nil => simp [List.lookup] at h
  | cons p t ih =>
    rcases p with ⟨k, v⟩
    cases hak : a == k with
    | true =>
      have : a = k := by simpa using hak
      simp [this]
    | false =>
      simp only [List.lookup, hak] at h
      simpa using Or.inr (ih h)

theorem dnaValue_key_fixed (d : Char) (h : (dnaValue d).isSome) : d.toUpper = d := by
  have hm := lookup_isSome_mem_keys ambiguous_dna_values d h
  simp only [ambiguous_dna_values] at hm
  fin_cases hm <;> decide

theorem ambiguous_dna_re_isSome {c : Char} (h : (dnaValue c).isSome) :
    (ambiguous_dna_re c).isSome := by
  unfold ambiguous_dna_re
  split
  · next hd => rw [hd] at h; simp at h
  · next v hd => split <;> simp

theorem make_reg_ex_isSome {l : List Char} (h : ∀ ch ∈ l, (dnaValue ch).isSome) :
    (make_reg_ex l).isSome := by
  induction l with
  | nil => simp [make_reg_ex]
  | cons c rest ih =>
    unfold make_reg_ex
    have h1 := ambiguous_dna_re_isSome (h c (List.mem_cons_self c rest))
    have h2 := ih (fun ch hch => h ch (List.mem_cons_of_mem c hch))
    cases hc : ambiguous_dna_re c with
    | none => rw [hc] at h1; simp at h1
    | some f =>
      cases hr : make_reg_ex rest with
      | none => rw [hr] at h2; simp at h2
      | some r => simp

theorem mapOption_isSome {α β : Type} (f : α → Option β) (l : List α)
    (h : ∀ x ∈ l, (f x).isSome) : (mapOption f l).isSome := by
  induction l with
  | nil => simp [mapOption]
  | cons a r ih =>
    unfold mapOption
    have h1 := h a (List.mem_cons_self a r)
    have h2 := ih (fun x hx => h x (List.mem_cons_of_mem a hx))
    cases ha : f a with
    | none => rw [ha] at h1; simp at h1
    | some b =>
      cases hr : mapOption f r with
      | none => rw [hr] at h2; simp at h2
      | some rs => simp

theorem mapExcept_isOk {α β : Type} (f : α → Except String β) (l : List α)
    (h : ∀ x ∈ l, (f x).isOk) : (mapExcept f l).isOk := by
  induction l with
  | nil => simp [mapExcept, Except.isOk, Except.toBool]
  | cons a r ih =>
    unfold mapExcept
    have h1 := h a (List.mem_cons_self a r)
    have h2 := ih (fun x hx => h x (List.mem_cons_of_mem a hx))
    cases ha : f a with
    | error e => rw [ha] at h1; simp [Except.isOk, Except.toBool] at h1
    | ok b =>
      cases hr : mapExcept f r with
      | error e => rw [hr] at h2; simp [Except.isOk, Except.toBool] at h2
      | ok rs => simp [Except.isOk, Except.toBool]

theorem nVal_isSome : (dnaValue 'N').isSome := by decide

theorem maskPats1_isSome {s : List Char} (mm : Nat)
    (h : ∀ ch ∈ s, (dnaValue ch).isSome) : (maskPats1 s mm).isSome := by
  unfold maskPats1
  split
  · apply mapOption_isSome
    intro i _
    apply make_reg_ex_isSome
    intro ch hch
    unfold maskOne at hch
    rcases List.mem_append.mp hch with hch | hch
    · exact h ch (List.mem_of_mem_take hch)
    · rcases List.mem_cons.mp hch with rfl | hch
      · exact nVal_isSome
      · exact h ch (List.mem_of_mem_drop hch)
  · simp

theorem maskPats2_isSome {s : List Char} (mm : Nat)
    (h : ∀ ch ∈ s, (dnaValue ch).isSome) : (maskPats2 s mm).isSome := by
  unfold maskPats2
  split
  · apply mapOption_isSome
    intro p _
    apply make_reg_ex_isSome
    intro ch hch
    unfold maskTwo at hch
    rcases List.mem_append.mp hch with hch | hch
    · exact h ch (List.mem_of_mem_take hch)
    · rcases List.mem_cons.mp hch with rfl | hch
      · exact nVal_isSome
      · rcases List.mem_append.mp hch with hch | hch
        · exact h ch (List.mem_of_mem_drop (List.mem_of_mem_take hch))
        · rcases List.mem_cons.mp hch with rfl | hch
          · exact nVal_isSome
          · exact h ch (List.mem_of_mem_drop hch)
  · simp

theorem upper_valid {seq : List Char} (hv : ∀ ch ∈ seq, (dnaValue ch.toUpper).isSome) :
    ∀ ch ∈ upper seq, (dnaValue ch).isSome := by
  intro ch hch
  obtain ⟨c, hc, rfl⟩ := List.mem_map.mp hch
  exact hv c hc

theorem upper_valid_toUpper {seq : List Char}
    (hv : ∀ ch ∈ seq, (dnaValue ch.toUpper).isSome) :
    ∀ ch ∈ upper seq, (dnaValue ch.toUpper).isSome := by
  intro ch hch
  have h1 := upper_valid hv ch hch
  rw [dnaValue_key_fixed ch h1]
  exact h1

theorem make_reg_ex_mm_gt2 (seq : List Char) (mm : Nat) (h : 2 < mm) :
    make_reg_ex_mm seq mm = Except.error "At most 2 mismatches allowed!" := by
  unfold make_reg_ex_mm make_reg_ex_mm_aux
  rw [if_pos h]

theorem make_reg_ex_mm_aux_isOk :
    ∀ (fuel : Nat) (seq : List Char) (mm : Nat), mm < fuel → mm ≤ 2 →
      (∀ ch ∈ seq, (dnaValue ch.toUpper).isSome) →
      (make_reg_ex_mm_aux fuel seq mm).isOk := by
  intro fuel
  induction fuel with
  | zero => intro seq mm h _ _; omega
  | succ fuel ih =>
    intro seq mm hf h2 hv
    have hvu : ∀ ch ∈ upper seq, (dnaValue ch).isSome := upper_valid hv
    have hvuu : ∀ ch ∈ upper seq, (dnaValue ch.toUpper).isSome := upper_valid_toUpper hv
    unfold make_reg_ex_mm_aux
    rw [if_neg (by omega)]
    simp only []
    cases hb : make_reg_ex (upper seq) with
    | none => exact absurd (make_reg_ex_isSome hvu) (by simp [hb])
    | some base =>
      have hbd : (mapExcept (fun j =>
          match make_reg_ex_mm_aux fuel ((upper seq).drop (j + 1)) (mm - (j + 1)),
                make_reg_ex_mm_aux fuel ((upper seq).take ((upper seq).length - (j + 1)))
                  (mm - (j + 1)) with
          | Except.ok front, Except.ok back =>
            Except.ok ((front.map (fun r => '^' :: r)) ++ (back.map (fun r => '$' :: r)))
          | Except.error e, _ => Except.error e
          | _, Except.error e => Except.error e) (List.range mm)).isOk := by
        apply mapExcept_isOk
        intro j hj
        have hj' : j < mm := List.mem_range.mp hj
        have hfr := ih ((upper seq).drop (j + 1)) (mm - (j + 1)) (by omega) (by omega)
          (fun ch hch => hvuu ch (List.mem_of_mem_drop hch))
        have hbk := ih ((upper seq).take ((upper seq).length - (j + 1))) (mm - (j + 1))
          (by omega) (by omega) (fun ch hch => hvuu ch (List.mem_of_mem_take hch))
        cases hfr2 : make_reg_ex_mm_aux fuel ((upper seq).drop (j + 1)) (mm - (j + 1)) with
        | error e => rw [hfr2] at hfr; simp [Except.isOk, Except.toBool] at hfr
        | ok front =>
          cases hbk2 : make_reg_ex_mm_aux fuel
              ((upper seq).take ((upper seq).length - (j + 1))) (mm - (j + 1)) with
          | error e => rw [hbk2] at hbk; simp [Except.isOk, Except.toBool] at hbk
          | ok back => simp [Except.isOk, Except.toBool]
      cases hmu : mapExcept (fun j =>
          match make_reg_ex_mm_aux fuel ((upper seq).drop (j + 1)) (mm - (j + 1)),
                make_reg_ex_mm_aux fuel ((upper seq).take ((upper seq).length - (j + 1)))
                  (mm - (j + 1)) with
          | Except.ok front, Except.ok back =>
            Except.ok ((front.map (fun r => '^' :: r)) ++ (back.map (fun r => '$' :: r)))
          | Except.error e, _ => Except.error e
          | _, Except.error e => Except.error e) (List.range mm) with
      | error e => rw [hmu] at hbd; simp [Except.isOk, Except.toBool] at hbd
      | ok bnds =>
        cases hm1 : maskPats1 (upper seq) mm with
        | none => exact absurd (maskPats1_isSome mm hvu) (by simp [hm1])
        | some m1 =>
          cases hm2 : maskPats2 (upper seq) mm with
          | none => exact absurd (maskPats2_isSome mm hvu) (by simp [hm2])
          | some m2 => simp [Except.isOk, Except.toBool]

/-- C8: pattern generation fails with the `NotImplementedError` message
`At most 2 mismatches allowed!` for every mismatch count above 2 — and then
`load_primers_as_re` propagates that failure for any non-empty primer list,
so no pattern set is produced — while for mismatch counts 0, 1 and 2 it
succeeds on every sequence whose (uppercased) symbols are in the ambiguity
table. -/
theorem C8_mismatch_budget (mm : Nat) (seq : List Char) :
    (2 < mm → make_reg_ex_mm seq mm = Except.error "At most 2 mismatches allowed!") ∧
    (2 < mm → ∀ (p : List Char) (ps : List (List Char)),
      load_primers_as_re (p :: ps) mm = Except.error "At most 2 mismatches allowed!") ∧
    (mm ≤ 2 → (∀ ch ∈ seq, (dnaValue ch.toUpper).isSome) →
      (make_reg_ex_mm seq mm).isOk) := by
  refine ⟨fun h => make_reg_ex_mm_gt2 seq mm h, fun h p ps => ?_, fun h1 h2 => ?_⟩
  · unfold load_primers_as_re
    simp only [mapExcept, make_reg_ex_mm_gt2 p mm h]
  · exact make_reg_ex_mm_aux_isOk (mm + 1) seq mm (by omega) h1 h2

theorem C8_mismatch_budget_witness :
    make_reg_ex_mm ['A', 'C'] 3 = Except.error "At most 2 mismatches allowed!" ∧
    (make_reg_ex_mm ['A', 'C', 'G', 'T'] 2).isOk = true :=
  ⟨(C8_mismatch_budget 3 ['A', 'C']).1 (by omega),
   (C8_mismatch_budget 2 ['A', 'C', 'G', 'T']).2.2 (by omega) (by decide)⟩

/-! ### Exact matching for unambiguous primers (C3) -/

theorem ambiguous_dna_re_unamb {ch : Char} (h : ch ∈ (['A', 'C', 'G', 'T'] : List Char)) :
    ambiguous_dna_re ch = some [ch] := by
  fin_cases h <;> decide

theorem make_reg_ex_unamb {l : List Char} (h : ∀ ch ∈ l, ch ∈ (['A', 'C', 'G', 'T'] : List Char)) :
    make_reg_ex l = some l := by
  induction l with
  | nil => rfl
  | cons c rest ih =>
    unfold make_reg_ex
    rw [ambiguous_dna_re_unamb (h c (List.mem_cons_self c rest)),
      ih (fun ch hch => h ch (List.mem_cons_of_mem c hch))]
    rfl

theorem parseToks_plain_append (l1 l2 acc : List Char)
    (h : ∀ ch ∈ l1, ch ≠ '^' ∧ ch ≠ '$' ∧ ch ≠ '.' ∧ ch ≠ '[') :
    parseToks (l1 ++ l2) false acc = l1.map Tok.lit ++ parseToks l2 false acc := by
  induction l1 generalizing acc with
  | nil => simp
  | cons c r ih =>
    obtain ⟨h1, h2, h3, h4⟩ := h c (List.mem_cons_self c r)
    simp only [List.cons_append, parseToks, if_neg h1, if_neg h2, if_neg h3, if_neg h4,
      List.map_cons, List.cons_append]
    exact congrArg (Tok.lit c :: ·) (ih acc (fun ch hch => h ch (List.mem_cons_of_mem c hch)))

theorem parseToks_plain (l : List Char)
    (h : ∀ ch ∈ l, ch ≠ '^' ∧ ch ≠ '$' ∧ ch ≠ '.' ∧ ch ≠ '[') :
    parseToks l false [] = l.map Tok.lit := by
  have := parseToks_plain_append l [] [] h
  simpa [parseToks] using this

theorem acgt_plain {ch : Char} (h : ch ∈ (['A', 'C', 'G', 'T'] : List Char)) :
    ch ≠ '^' ∧ ch ≠ '$' ∧ ch ≠ '.' ∧ ch ≠ '[' := by
  fin_cases h <;> decide

theorem matchToks_lits (l : List Char) :
    ∀ (t : List Char) (q : Nat),
      matchToks t (l.map Tok.lit) q =
        if l.isPrefixOf (t.drop q) then some (q + l.length) else none := by
  induction l with
  | nil =>
    intro t q
    simp [matchToks, List.isPrefixOf]
  | cons c l' ih =>
    intro t q
    simp only [List.map_cons, matchToks]
    cases hq : t[q]? with
    | none =>
      have hlen : t.length ≤ q := by
        by_contra hlt
        push_neg at hlt
        rw [List.getElem?_eq_getElem hlt] at hq
        simp at hq
      rw [List.drop_eq_nil_of_le hlen]
      simp [List.isPrefixOf]
    | some d =>
      have hqlt : q < t.length := by
        by_contra hge
        rw [List.getElem?_eq_none (by omega)] at hq
        simp at hq
      have htq : t[q] = d := by
        rw [List.getElem?_eq_getElem hqlt] at hq
        simpa using hq
      have hd : t.drop q = d :: t.drop (q + 1) := htq ▸ List.drop_eq_getElem_cons hqlt
      rw [hd]
      by_cases hcd : d = c
      · subst hcd
        rw [if_pos rfl, ih t (q + 1)]
        have hpre : (d :: l').isPrefixOf (d :: t.drop (q + 1)) =
            l'.isPrefixOf (t.drop (q + 1)) := by
          simp [List.isPrefixOf]
        rw [hpre]
        by_cases hp : l'.isPrefixOf (t.drop (q + 1)) = true
        · rw [if_pos hp, if_pos hp]
          congr 1
          simp
          omega
        · rw [if_neg hp, if_neg hp]
      · have hne : ¬ ((some d : Option Char) = some c) := by
          intro hdc
          exact hcd (Option.some.inj hdc)
        rw [if_neg hne]
        have hcd' : (c == d) = false := by
          simp only [beq_eq_false_iff_ne, ne_eq]
          exact fun hcc => hcd hcc.symm
        have : (c :: l').isPrefixOf (d :: t.drop (q + 1)) = false := by
          simp [List.isPrefixOf, hcd']
        rw [this]
        simp

theorem matchFirstAt_singleton (pat : List Tok) (t : List Char) (q : Nat) :
    matchFirstAt [pat] t q = matchToks t pat q := by
  unfold matchFirstAt
  cases h : matchToks t pat q <;> simp [matchFirstAt]

theorem searchAux_lit (l : List Char) (hl : l ≠ []) (t : List Char) :
    ∀ (fuel q : Nat), q + fuel = t.length + 1 →
      searchAux [l.map Tok.lit] t q fuel =
        (str_find l (t.drop q)).map (fun i => (q + i, q + i + l.length)) := by
  intro fuel
  induction fuel generalizing t with
  | zero =>
    intro q hq
    rw [List.drop_eq_nil_of_le (by omega)]
    rcases l with _ | ⟨c, l'⟩
    · exact absurd rfl hl
    · simp [searchAux, str_find]
  | succ fuel ih =>
    intro q hq
    simp only [searchAux]
    rw [matchFirstAt_singleton, matchToks_lits]
    by_cases hpre : l.isPrefixOf (t.drop q) = true
    · rw [if_pos hpre]
      have hsf : str_find l (t.drop q) = some 0 := by
        cases hd : t.drop q with
        | nil =>
          rcases l with _ | ⟨c, l'⟩
          · exact absurd rfl hl
          · rw [hd] at hpre
            simp [List.isPrefixOf] at hpre
        | cons d r =>
          rw [hd] at hpre
          simp [str_find, hpre]
      rw [hsf]
      simp
    · rw [if_neg hpre]
      rw [ih t (q + 1) (by omega)]
      cases hd : t.drop q with
      | nil =>
        have hql : t.length ≤ q := by
          by_contra hlt
          push_neg at hlt
          rw [List.drop_eq_getElem_cons hlt] at hd
          simp at hd
          omega
        rw [List.drop_eq_nil_of_le (by omega)]
        rcases l with _ | ⟨c, l'⟩
        · exact absurd rfl hl
        · simp [str_find]
      | cons d r =>
        have hr : r = t.drop (q + 1) := by
          have ht := List.tail_drop t q
          rw [hd] at ht
          simpa using ht
        rw [hd] at hpre
        have hsf : str_find l (d :: r) = (str_find l r).map (fun i => i + 1) := by
          simp only [str_find]
          rw [if_neg hpre]
        rw [hsf, hr]
        cases str_find l (t.drop (q + 1)) with
        | none => rfl
        | some i =>
          simp only [Option.map_some']
          congr 1
          simp only [Prod.mk.injEq]
          omega

theorem re_search_lits (l : List Char) (t : List Char) :
    re_search [l.map Tok.lit] t = (str_find l t).map (fun i => (i, i + l.length)) := by
  by_cases hl : l = []
  · subst hl
    have h0 : re_search [([] : List Char).map Tok.lit] t = some (0, 0) := by
      unfold re_search searchAux
      rw [matchFirstAt_singleton]
      simp [matchToks]
    rw [h0]
    cases t <;> simp [str_find, List.isPrefixOf]
  · have := searchAux_lit l hl t (t.length + 1) 0 (by omega)
    unfold re_search
    rw [this]
    simp

theorem make_reg_ex_mm_zero {p : List Char} (hb : make_reg_ex (upper p) = some (upper p)) :
    make_reg_ex_mm p 0 = Except.ok [upper p] := by
  unfold make_reg_ex_mm make_reg_ex_mm_aux
  rw [if_neg (by omega)]
  simp only [hb, List.range_zero, mapExcept, maskPats1, maskPats2]
  norm_num

theorem load_singleton_zero {p : List Char} (hb : make_reg_ex (upper p) = some (upper p)) :
    load_primers_as_re [p] 0 = Except.ok [upper p] := by
  unfold load_primers_as_re
  simp only [mapExcept, make_reg_ex_mm_zero hb]
  simp [dedupAcc, sortByLenDesc, insertByLen]

/-- C3: with a zero mismatch budget and a primer made only of the
unambiguous symbols A, C, G, T, the compiled matcher consists of the single
literal pattern (the uppercased primer), and searching any target returns
exactly the result of a plain substring search: a match iff the primer
occurs as an exact contiguous substring, at the leftmost occurrence, with
span `[i, i + len)`. -/
theorem C3_exact_match (p : List Char)
    (hp : ∀ ch ∈ p, ch.toUpper ∈ (['A', 'C', 'G', 'T'] : List Char)) (t : List Char) :
    load_primers_as_re [p] 0 = Except.ok [upper p] ∧
    re_search (compileAll [upper p]) t =
      (str_find (upper p) t).map (fun i => (i, i + p.length)) := by
  have hup : ∀ ch ∈ upper p, ch ∈ (['A', 'C', 'G', 'T'] : List Char) := by
    intro ch hch
    obtain ⟨c, hc, rfl⟩ := List.mem_map.mp hch
    exact hp c hc
  have hb : make_reg_ex (upper p) = some (upper p) := make_reg_ex_unamb hup
  refine ⟨load_singleton_zero hb, ?_⟩
  have hcomp : compileAll [upper p] = [(upper p).map Tok.lit] := by
    simp [compileAll, compileRegex,
      parseToks_plain (upper p) (fun ch hch => acgt_plain (hup ch hch))]
  rw [hcomp, re_search_lits]
  simp only [length_upper]

theorem C3_exact_match_witness :
    load_primers_as_re [['a', 'c', 'g', 't']] 0 = Except.ok [upper ['a', 'c', 'g', 't']] ∧
    re_search (compileAll [upper ['a', 'c', 'g', 't']])
        ['T', 'T', 'A', 'C', 'G', 'T', 'A', 'C', 'G', 'T'] =
      (str_find (upper ['a', 'c', 'g', 't'])
        ['T', 'T', 'A', 'C', 'G', 'T', 'A', 'C', 'G', 'T']).map
        (fun i => (i, i + (['a', 'c', 'g', 't'] : List Char).length)) :=
  C3_exact_match ['a', 'c', 'g', 't'] (by decide) ['T', 'T', 'A', 'C', 'G', 'T', 'A', 'C', 'G', 'T']

/-! ### Idempotence of the clip decision (C6) -/

theorem getElem?_take_some {t : List Char} {s0 q : Nat} {c : Char}
    (h : (t.take s0)[q]? = some c) : t[q]? = some c := by
  have hq : q < (t.take s0).length := by
    by_contra hge
    rw [List.getElem?_eq_none (by omega)] at h
    simp at h
  rw [List.length_take] at hq
  rw [← List.getElem?_take_of_lt (show q < s0 by omega)]
  exact h

theorem matchToks_take_lift (t : List Char) (s0 : Nat) (ts : List Tok)
    (hts : Tok.stop ∉ ts) :
    ∀ q e, matchToks (t.take s0) ts q = some e → matchToks t ts q = some e := by
  induction ts with
  | nil => intro q e h; simpa [matchToks] using h
  | cons tk ts ih =>
    have hts' : Tok.stop ∉ ts := fun hc => hts (List.mem_cons_of_mem tk hc)
    intro q e h
    cases tk with
    | start =>
      simp only [matchToks] at h ⊢
      by_cases hq : q = 0
      · rw [if_pos hq] at h ⊢
        exact ih hts' q e h
      · rw [if_neg hq] at h
        simp at h
    | stop => exact absurd (List.mem_cons_self Tok.stop ts) hts
    | any =>
      simp only [matchToks] at h ⊢
      cases hq : (t.take s0)[q]? with
      | none => simp [hq] at h
      | some c =>
        simp only [hq] at h
        simp only [getElem?_take_some hq]
        by_cases hc : c = '\n'
        · simp [hc] at h
        · simp only [if_neg hc] at h ⊢
          exact ih hts' (q + 1) e h
    | lit ch =>
      simp only [matchToks] at h ⊢
      by_cases hq : (t.take s0)[q]? = some ch
      · rw [if_pos hq] at h
        rw [if_pos (getElem?_take_some hq)]
        exact ih hts' (q + 1) e h
      · rw [if_neg hq] at h
        simp at h
    | cls cs =>
      simp only [matchToks] at h ⊢
      cases hq : (t.take s0)[q]? with
      | none => simp [hq] at h
      | some c =>
        simp only [hq] at h
        simp only [getElem?_take_some hq]
        by_cases hc : c ∈ cs
        · simp only [if_pos hc] at h ⊢
          exact ih hts' (q + 1) e h
        · simp [hc] at h

theorem matchToks_consumes (t : List Char) (ts : List Tok)
    (hstop : Tok.stop ∉ ts) (hcons : ∃ tk ∈ ts, tk ≠ Tok.start ∧ tk ≠ Tok.stop) :
    ∀ q e, matchToks t ts q = some e → q < t.length := by
  induction ts with
  | nil =>
    intro q e _
    obtain ⟨tk, htk, -⟩ := hcons
    exact absurd htk (List.not_mem_nil tk)
  | cons tk ts ih =>
    intro q e h
    have hstop' : Tok.stop ∉ ts := fun hc => hstop (List.mem_cons_of_mem tk hc)
    cases tk with
    | start =>
      simp only [matchToks] at h
      by_cases hq : q = 0
      · rw [if_pos hq] at h
        have hcons' : ∃ tk ∈ ts, tk ≠ Tok.start ∧ tk ≠ Tok.stop := by
          obtain ⟨tk', htk', hne⟩ := hcons
          rcases List.mem_cons.mp htk' with rfl | htl
          · exact absurd rfl hne.1
          · exact ⟨tk', htl, hne⟩
        exact ih hstop' hcons' q e h
      · rw [if_neg hq] at h
        simp at h
    | stop => exact absurd (List.mem_cons_self Tok.stop ts) hstop
    | any =>
      simp only [matchToks] at h
      cases hq : t[q]? with
      | none => rw [hq] at h; simp at h
      | some c =>
        by_contra hge
        rw [List.getElem?_eq_none (by omega)] at hq
        simp at hq
    | lit ch =>
      simp only [matchToks] at h
      by_cases hq : t[q]? = some ch
      · by_contra hge
        rw [List.getElem?_eq_none (by omega)] at hq
        simp at hq
      · rw [if_neg hq] at h
        simp at h
    | cls cs =>
      simp only [matchToks] at h
      cases hq : t[q]? with
      | none => rw [hq] at h; simp at h
      | some c =>
        by_contra hge
        rw [List.getElem?_eq_none (by omega)] at hq
        simp at hq

/-- C6 counterexample: with primer `ACGT` at zero mismatches (one literal
pattern, no anchors), forward-clipping the read `ACGTACGT` emits the
clipped sequence `ACGT`, and running the clip decision again on that output
matches the primer again and clips a second time (the `clipped` counter,
not the kept-unmatched counter, is incremented), contrary to the claim that
the second run yields kept-unmatched. -/
theorem C6_counterexample :
    fastq_forward_step (compileAll [['A', 'C', 'G', 'T']]) 0 true Counters.zero
        ⟨[], ['A', 'C', 'G', 'T', 'A', 'C', 'G', 'T'],
          ['q', 'q', 'q', 'q', 'q', 'q', 'q', 'q']⟩ =
      ({ Counters.zero with clipped := 1 },
       some ⟨[], ['A', 'C', 'G', 'T'], ['q', 'q', 'q', 'q']⟩) ∧
    (fastq_forward_step (compileAll [['A', 'C', 'G', 'T']]) 0 true Counters.zero
        ⟨[], ['A', 'C', 'G', 'T'], ['q', 'q', 'q', 'q']⟩).1.clipped = 1 ∧
    (fastq_forward_step (compileAll [['A', 'C', 'G', 'T']]) 0 true Counters.zero
        ⟨[], ['A', 'C', 'G', 'T'], ['q', 'q', 'q', 'q']⟩).1.negs = 0 ∧
    re_search (compileAll [['A', 'C', 'G', 'T']]) (upper ['A', 'C', 'G', 'T']) ≠ none := by
  decide

theorem dnaTok_ne {t : Tok} (h : dnaTok t) : t ≠ Tok.start ∧ t ≠ Tok.stop := by
  cases t with
  | start => exact h.elim
  | stop => exact h.elim
  | any => exact ⟨fun hc => Tok.noConfusion hc, fun hc => Tok.noConfusion hc⟩
  | lit ch => exact ⟨fun hc => Tok.noConfusion hc, fun hc => Tok.noConfusion hc⟩
  | cls cs => exact ⟨fun hc => Tok.noConfusion hc, fun hc => Tok.noConfusion hc⟩

theorem parseToks_class_aux (v : List Char) :
    ∀ (acc r2 : List Char), (∀ ch ∈ v, ch ≠ ']') →
      parseToks (v ++ ']' :: r2) true acc = Tok.cls (acc ++ v) :: parseToks r2 false [] := by
  induction v with
  | nil =>
    intro acc r2 _
    simp [parseToks]
  | cons ch v ih =>
    intro acc r2 hv
    have hne : ch ≠ ']' := hv ch (List.mem_cons_self ch v)
    show parseToks (ch :: (v ++ ']' :: r2)) true acc = _
    simp only [parseToks, if_neg hne]
    rw [ih (acc ++ [ch]) r2 (fun c hc => hv c (List.mem_cons_of_mem ch hc)),
      List.append_assoc, List.singleton_append]

theorem parseToks_cls (v : List Char) (hv : ∀ ch ∈ v, ch ≠ ']') (r2 acc : List Char) :
    parseToks ('[' :: (v ++ ']' :: r2)) false acc = Tok.cls v :: parseToks r2 false [] :=
  parseToks_class_aux v [] r2 hv

theorem parseToks_lit (ch : Char) (h1 : ch ≠ '^') (h2 : ch ≠ '$') (h3 : ch ≠ '.')
    (h4 : ch ≠ '[') (r2 acc : List Char) :
    parseToks (ch :: r2) false acc = Tok.lit ch :: parseToks r2 false acc := by
  simp only [parseToks, if_neg h1, if_neg h2, if_neg h3, if_neg h4]

theorem lookup_mem (l : List (Char × List Char)) (a : Char) (b : List Char) :
    l.lookup a = some b → (a, b) ∈ l := by
  induction l with
  | nil => intro h; simp [List.lookup] at h
  | cons p t ih =>
    rcases p with ⟨k, v⟩
    intro h
    cases hak : a == k with
    | true =>
      have hk : a = k := by simpa using hak
      simp only [List.lookup, hak] at h
      have hb : v = b := Option.some.inj h
      rw [hk, ← hb]
      exact List.mem_cons_self _ _
    | false =>
      simp only [List.lookup, hak] at h
      exact List.mem_cons_of_mem _ (ih h)

theorem dnaValue_chars {c : Char} {v : List Char} (h : dnaValue c = some v) :
    v ≠ [] ∧ ∀ ch ∈ v, ch ≠ ']' ∧ ch ≠ '[' ∧ ch ≠ '^' ∧ ch ≠ '$' ∧ ch ≠ '\n' := by
  have hm : (c, v) ∈ ambiguous_dna_values := lookup_mem _ _ _ h
  have hall : ∀ p ∈ ambiguous_dna_values,
      p.2 ≠ [] ∧ ∀ ch ∈ p.2, ch ≠ ']' ∧ ch ≠ '[' ∧ ch ≠ '^' ∧ ch ≠ '$' ∧ ch ≠ '\n' := by
    decide
  exact hall (c, v) hm

theorem ambiguous_dna_re_parse {c : Char} {f : List Char}
    (h : ambiguous_dna_re c = some f) (r2 : List Char) :
    ∃ t, dnaTok t ∧ parseToks (f ++ r2) false [] = t :: parseToks r2 false [] := by
  unfold ambiguous_dna_re at h
  cases hv : dnaValue c with
  | none => rw [hv] at h; exact Option.noConfusion h
  | some v =>
    rw [hv] at h
    have h' : (if v.length == 1 then some v else some ('[' :: v ++ [']'])) = some f := h
    obtain ⟨hvne, hvch⟩ := dnaValue_chars hv
    by_cases hlen : (v.length == 1) = true
    · rw [if_pos hlen] at h'
      have hf : v = f := Option.some.inj h'
      subst hf
      have hlen' : v.length = 1 := by simpa using hlen
      obtain ⟨ch, hch⟩ : ∃ ch, v = [ch] := by
        cases v with
        | nil => simp at hlen'
        | cons a t =>
          cases t with
          | nil => exact ⟨a, rfl⟩
          | cons b t2 => simp at hlen'
      subst hch
      have hp := hvch ch (List.mem_cons_self ch [])
      by_cases hdot : ch = '.'
      · subst hdot
        exact ⟨Tok.any, trivial, rfl⟩
      · exact ⟨Tok.lit ch, hp.2.2.2.2,
          parseToks_lit ch hp.2.2.1 hp.2.2.2.1 hdot hp.2.1 r2 []⟩
    · rw [if_neg hlen] at h'
      have hf : '[' :: v ++ [']'] = f := Option.some.inj h'
      subst hf
      refine ⟨Tok.cls v, fun hc => (hvch '\n' hc).2.2.2.2 rfl, ?_⟩
      have hre : ('[' :: v ++ [']']) ++ r2 = '[' :: (v ++ ']' :: r2) := by simp
      rw [hre]
      exact parseToks_cls v (fun ch hch => (hvch ch hch).1) r2 []

theorem make_reg_ex_body : ∀ {l r : List Char}, make_reg_ex l = some r →
    (parseToks r false []).length = l.length ∧ ∀ t ∈ parseToks r false [], dnaTok t := by
  intro l
  induction l with
  | nil =>
    intro r h
    have hr : ([] : List Char) = r := Option.some.inj h
    subst hr
    exact ⟨rfl, fun t ht => absurd ht (List.not_mem_nil t)⟩
  | cons c rest ih =>
    intro r h
    unfold make_reg_ex at h
    cases hf : ambiguous_dna_re c with
    | none =>
      rw [hf] at h
      exact Option.noConfusion (show (none : Option (List Char)) = some r from h)
    | some f =>
      rw [hf] at h
      cases hre : make_reg_ex rest with
      | none =>
        rw [hre] at h
        exact Option.noConfusion (show (none : Option (List Char)) = some r from h)
      | some r0 =>
        rw [hre] at h
        have heq : f ++ r0 = r :=
          Option.some.inj (show some (f ++ r0) = some r from h)
        subst heq
        obtain ⟨t, ht, hpt⟩ := ambiguous_dna_re_parse hf r0
        rw [hpt]
        obtain ⟨ihl, ihm⟩ := ih hre
        refine ⟨?_, ?_⟩
        · rw [List.length_cons, ihl, List.length_cons]
        · intro x hx
          rcases List.mem_cons.mp hx with rfl | hx'
          · exact ht
          · exact ihm x hx'

theorem mapOption_some_mem {α β : Type} (f : α → Option β) :
    ∀ (l : List α) (ys : List β), mapOption f l = some ys →
      ∀ y ∈ ys, ∃ a ∈ l, f a = some y := by
  intro l
  induction l with
  | nil =>
    intro ys h y hy
    have h' : ([] : List β) = ys := Option.some.inj h
    subst h'
    exact absurd hy (List.not_mem_nil y)
  | cons a r ih =>
    intro ys h y hy
    unfold mapOption at h
    cases hfa : f a with
    | none =>
      rw [hfa] at h
      exact Option.noConfusion (show (none : Option (List β)) = some ys from h)
    | some b =>
      rw [hfa] at h
      cases hmr : mapOption f r with
      | none =>
        rw [hmr] at h
        exact Option.noConfusion (show (none : Option (List β)) = some ys from h)
      | some rs =>
        rw [hmr] at h
        have h' : b :: rs = ys := Option.some.inj (show some (b :: rs) = some ys from h)
        subst h'
        rcases List.mem_cons.mp hy with rfl | hy'
        · exact ⟨a, List.mem_cons_self a r, hfa⟩
        · obtain ⟨a', ha', hfa'⟩ := ih rs hmr y hy'
          exact ⟨a', List.mem_cons_of_mem a ha', hfa'⟩

theorem mapExcept_ok_mem {α β : Type} (f : α → Except String β) :
    ∀ (l : List α) (ys : List β), mapExcept f l = Except.ok ys →
      ∀ y ∈ ys, ∃ a ∈ l, f a = Except.ok y := by
  intro l
  induction l with
  | nil =>
    intro ys h y hy
    have h' : ([] : List β) = ys := Except.ok.inj h
    subst h'
    exact absurd hy (List.not_mem_nil y)
  | cons a r ih =>
    intro ys h y hy
    unfold mapExcept at h
    cases hfa : f a with
    | error e =>
      rw [hfa] at h
      exact Except.noConfusion (show (Except.error e : Except String (List β)) = Except.ok ys from h)
    | ok b =>
      rw [hfa] at h
      cases hmr : mapExcept f r with
      | error e =>
        rw [hmr] at h
        exact Except.noConfusion
          (show (Except.error e : Except String (List β)) = Except.ok ys from h)
      | ok rs =>
        rw [hmr] at h
        have h' : b :: rs = ys :=
          Except.ok.inj (show Except.ok (b :: rs) = Except.ok ys from h)
        subst h'
        rcases List.mem_cons.mp hy with rfl | hy'
        · exact ⟨a, List.mem_cons_self a r, hfa⟩
        · obtain ⟨a', ha', hfa'⟩ := ih rs hmr y hy'
          exact ⟨a', List.mem_cons_of_mem a ha', hfa'⟩

theorem anchors_at_end_no_match (t : List Char) (tk : Tok) (htk : dnaTok tk)
    (rest : List Tok) (q : Nat)
    (hq : q = t.length ∨ (q + 1 = t.length ∧ t[q]? = some '\n')) :
    ∀ A : List Tok, (∀ x ∈ A, x = Tok.start ∨ x = Tok.stop) →
      matchToks t (A ++ tk :: rest) q = none := by
  intro A
  induction A with
  | nil =>
    intro _
    cases tk with
    | start => exact htk.elim
    | stop => exact htk.elim
    | any =>
      show matchToks t (Tok.any :: rest) q = none
      unfold matchToks
      rcases hq with hq | ⟨hq1, hq2⟩
      · rw [List.getElem?_eq_none (by omega)]
      · rw [hq2]
        rfl
    | lit ch =>
      show matchToks t (Tok.lit ch :: rest) q = none
      unfold matchToks
      have hne : t[q]? ≠ some ch := by
        rcases hq with hq | ⟨hq1, hq2⟩
        · rw [List.getElem?_eq_none (by omega)]
          exact fun hc => Option.noConfusion hc
        · rw [hq2]
          intro hc
          exact htk (Option.some.inj hc).symm
      rw [if_neg hne]
    | cls cs =>
      show matchToks t (Tok.cls cs :: rest) q = none
      unfold matchToks
      rcases hq with hq | ⟨hq1, hq2⟩
      · rw [List.getElem?_eq_none (by omega)]
      · rw [hq2]
        show (if '\n' ∈ cs then matchToks t rest (q + 1) else none) = none
        rw [if_neg htk]
  | cons x A ih =>
    intro hA
    have hA' : ∀ y ∈ A, y = Tok.start ∨ y = Tok.stop :=
      fun y hy => hA y (List.mem_cons_of_mem x hy)
    rcases hA x (List.mem_cons_self x A) with rfl | rfl
    · show matchToks t (Tok.start :: (A ++ tk :: rest)) q = none
      unfold matchToks
      by_cases hq0 : q = 0
      · rw [if_pos hq0]
        exact ih hA'
      · rw [if_neg hq0]
    · show matchToks t (Tok.stop :: (A ++ tk :: rest)) q = none
      unfold matchToks
      by_cases hcond : q = t.length ∨ (q + 1 = t.length ∧ t[q]? = some '\n')
      · rw [if_pos hcond]
        exact ih hA'
      · rw [if_neg hcond]

theorem anchored_stop_no_match (t : List Char) (tk : Tok) (htk : dnaTok tk)
    (rest : List Tok) (q : Nat) :
    ∀ A : List Tok, (∀ x ∈ A, x = Tok.start ∨ x = Tok.stop) → Tok.stop ∈ A →
      matchToks t (A ++ tk :: rest) q = none := by
  intro A
  induction A with
  | nil => intro _ hstop; exact absurd hstop (List.not_mem_nil _)
  | cons x A ih =>
    intro hA hstop
    have hA' : ∀ y ∈ A, y = Tok.start ∨ y = Tok.stop :=
      fun y hy => hA y (List.mem_cons_of_mem x hy)
    rcases hA x (List.mem_cons_self x A) with rfl | rfl
    · have hstop' : Tok.stop ∈ A := by
        rcases List.mem_cons.mp hstop with hcon | hm
        · exact absurd hcon (fun hc => Tok.noConfusion hc)
        · exact hm
      show matchToks t (Tok.start :: (A ++ tk :: rest)) q = none
      unfold matchToks
      by_cases hq0 : q = 0
      · rw [if_pos hq0]
        exact ih hA' hstop'
      · rw [if_neg hq0]
    · show matchToks t (Tok.stop :: (A ++ tk :: rest)) q = none
      unfold matchToks
      by_cases hcond : q = t.length ∨ (q + 1 = t.length ∧ t[q]? = some '\n')
      · rw [if_pos hcond]
        exact anchors_at_end_no_match t tk htk rest q hcond A hA'
      · rw [if_neg hcond]

theorem make_reg_ex_mm_shape :
    ∀ (fuel : Nat) (seq : List Char) (mm : Nat) (L : List (List Char)),
      mm < seq.length →
      make_reg_ex_mm_aux fuel seq mm = Except.ok L →
      ∀ str ∈ L, ∃ A body, parseToks str false [] = A ++ body ∧
        (∀ x ∈ A, x = Tok.start ∨ x = Tok.stop) ∧ body ≠ [] ∧ ∀ x ∈ body, dnaTok x := by
  intro fuel
  induction fuel with
  | zero =>
    intro seq mm L hml h
    exact Except.noConfusion
      (show (Except.error "out of fuel" : Except String (List (List Char))) = Except.ok L from h)
  | succ fuel ih =>
    intro seq mm L hml h
    unfold make_reg_ex_mm_aux at h
    by_cases hmm2 : mm > 2
    · rw [if_pos hmm2] at h
      exact Except.noConfusion
        (show (Except.error "At most 2 mismatches allowed!" :
          Except String (List (List Char))) = Except.ok L from h)
    · rw [if_neg hmm2] at h
      simp only [] at h
      cases hbase : make_reg_ex (upper seq) with
      | none =>
        rw [hbase] at h
        exact Except.noConfusion
          (show (Except.error "KeyError" : Except String (List (List Char))) = Except.ok L from h)
      | some base =>
        rw [hbase] at h
        cases hbnds : mapExcept (fun j =>
            match make_reg_ex_mm_aux fuel ((upper seq).drop (j + 1)) (mm - (j + 1)),
                  make_reg_ex_mm_aux fuel ((upper seq).take ((upper seq).length - (j + 1)))
                    (mm - (j + 1)) with
            | Except.ok front, Except.ok back =>
              Except.ok ((front.map (fun r => '^' :: r)) ++ (back.map (fun r => '$' :: r)))
            | Except.error e, _ => Except.error e
            | _, Except.error e => Except.error e) (List.range mm) with
        | error e =>
          rw [hbnds] at h
          exact Except.noConfusion
            (show (Except.error e : Except String (List (List Char))) = Except.ok L from h)
        | ok bnds =>
          rw [hbnds] at h
          cases hm1 : maskPats1 (upper seq) mm with
          | none =>
            rw [hm1] at h
            exact Except.noConfusion
              (show (Except.error "KeyError" : Except String (List (List Char))) =
                Except.ok L from h)
          | some m1 =>
            rw [hm1] at h
            cases hm2 : maskPats2 (upper seq) mm with
            | none =>
              rw [hm2] at h
              exact Except.noConfusion
                (show (Except.error "KeyError" : Except String (List (List Char))) =
                  Except.ok L from h)
            | some m2 =>
              rw [hm2] at h
              have hL : [base] ++ bnds.flatten ++ m1 ++ m2 = L :=
                Except.ok.inj
                  (show Except.ok ([base] ++ bnds.flatten ++ m1 ++ m2) = Except.ok L from h)
              subst hL
              intro str hstr
              rcases List.mem_append.mp hstr with hstr1 | hstrm2
              · rcases List.mem_append.mp hstr1 with hstr2 | hstrm1
                · rcases List.mem_append.mp hstr2 with hstrb | hstrbnd
                  · -- the exact pattern
                    have hsb : str = base := List.mem_singleton.mp hstrb
                    obtain ⟨hlen, hmem⟩ := make_reg_ex_body hbase
                    rw [hsb]
                    refine ⟨[], parseToks base false [], rfl, ?_, ?_, hmem⟩
                    · intro x hx
                      exact absurd hx (List.not_mem_nil x)
                    · intro hc
                      rw [hc, length_upper] at hlen
                      simp at hlen
                      omega
                  · -- a boundary-truncation pattern
                    obtain ⟨bl, hbl, hstrbl⟩ := List.mem_flatten.mp hstrbnd
                    obtain ⟨j, hj, hfj⟩ :=
                      mapExcept_ok_mem _ (List.range mm) bnds hbnds bl hbl
                    have hjm : j < mm := List.mem_range.mp hj
                    cases hfr : make_reg_ex_mm_aux fuel ((upper seq).drop (j + 1))
                        (mm - (j + 1)) with
                    | error e =>
                      rw [hfr] at hfj
                      cases hbk : make_reg_ex_mm_aux fuel
                          ((upper seq).take ((upper seq).length - (j + 1)))
                          (mm - (j + 1)) with
                      | error e2 =>
                        rw [hbk] at hfj
                        exact Except.noConfusion
                          (show (Except.error e : Except String (List (List Char))) =
                            Except.ok bl from hfj)
                      | ok back =>
                        rw [hbk] at hfj
                        exact Except.noConfusion
                          (show (Except.error e : Except String (List (List Char))) =
                            Except.ok bl from hfj)
                    | ok front =>
                      rw [hfr] at hfj
                      cases hbk : make_reg_ex_mm_aux fuel
                          ((upper seq).take ((upper seq).length - (j + 1)))
                          (mm - (j + 1)) with
                      | error e =>
                        rw [hbk] at hfj
                        exact Except.noConfusion
                          (show (Except.error e : Except String (List (List Char))) =
                            Except.ok bl from hfj)
                      | ok back =>
                        rw [hbk] at hfj
                        have hbl' : (front.map (fun r => '^' :: r)) ++
                            (back.map (fun r => '$' :: r)) = bl :=
                          Except.ok.inj (show Except.ok ((front.map (fun r => '^' :: r)) ++
                            (back.map (fun r => '$' :: r))) = Except.ok bl from hfj)
                        rw [← hbl'] at hstrbl
                        rcases List.mem_append.mp hstrbl with hfrm | hbkm
                        · obtain ⟨r0, hr0, rfl⟩ := List.mem_map.mp hfrm
                          have hml' : mm - (j + 1) < ((upper seq).drop (j + 1)).length := by
                            rw [List.length_drop, length_upper]
                            omega
                          obtain ⟨A0, body0, hp0, hA0, hb0, hd0⟩ :=
                            ih ((upper seq).drop (j + 1)) (mm - (j + 1)) front hml' hfr r0 hr0
                          refine ⟨Tok.start :: A0, body0, ?_, ?_, hb0, hd0⟩
                          · show Tok.start :: parseToks r0 false [] = (Tok.start :: A0) ++ body0
                            rw [hp0]
                            rfl
                          · intro x hx
                            rcases List.mem_cons.mp hx with rfl | hx'
                            · exact Or.inl rfl
                            · exact hA0 x hx'
                        · obtain ⟨r0, hr0, rfl⟩ := List.mem_map.mp hbkm
                          have hml' : mm - (j + 1) <
                              ((upper seq).take ((upper seq).length - (j + 1))).length := by
                            rw [List.length_take, length_upper]
                            omega
                          obtain ⟨A0, body0, hp0, hA0, hb0, hd0⟩ :=
                            ih ((upper seq).take ((upper seq).length - (j + 1)))
                              (mm - (j + 1)) back hml' hbk r0 hr0
                          refine ⟨Tok.stop :: A0, body0, ?_, ?_, hb0, hd0⟩
                          · show Tok.stop :: parseToks r0 false [] = (Tok.stop :: A0) ++ body0
                            rw [hp0]
                            rfl
                          · intro x hx
                            rcases List.mem_cons.mp hx with rfl | hx'
                            · exact Or.inr rfl
                            · exact hA0 x hx'
                · -- a single-wildcard pattern
                  unfold maskPats1 at hm1
                  by_cases h1m : 1 ≤ mm
                  · rw [if_pos h1m] at hm1
                    obtain ⟨i, hi, hmi⟩ :=
                      mapOption_some_mem _ (List.range (upper seq).length) m1 hm1 str hstrm1
                    obtain ⟨hlen, hmem⟩ := make_reg_ex_body hmi
                    refine ⟨[], parseToks str false [], rfl, ?_, ?_, hmem⟩
                    · intro x hx
                      exact absurd hx (List.not_mem_nil x)
                    · intro hc
                      rw [hc] at hlen
                      have hlp : 0 < (maskOne (upper seq) i).length := by
                        unfold maskOne
                        rw [List.length_append, List.length_cons]
                        omega
                      simp at hlen
                      omega
                  · rw [if_neg h1m] at hm1
                    have hm1' : ([] : List (List Char)) = m1 := Option.some.inj hm1
                    rw [← hm1'] at hstrm1
                    exact absurd hstrm1 (List.not_mem_nil str)
              · -- a two-wildcard pattern
                unfold maskPats2 at hm2
                by_cases h2m : 2 ≤ mm
                · rw [if_pos h2m] at hm2
                  obtain ⟨pr, hpr, hmpr⟩ :=
                    mapOption_some_mem _ (maskPairs (upper seq).length) m2 hm2 str hstrm2
                  obtain ⟨hlen, hmem⟩ := make_reg_ex_body hmpr
                  refine ⟨[], parseToks str false [], rfl, ?_, ?_, hmem⟩
                  · intro x hx
                    exact absurd hx (List.not_mem_nil x)
                  · intro hc
                    rw [hc] at hlen
                    have hlp : 0 < (maskTwo (upper seq) pr.1 pr.2).length := by
                      unfold maskTwo
                      rw [List.length_append, List.length_cons]
                      omega
                    simp at hlen
                    omega
                · rw [if_neg h2m] at hm2
                  have hm2' : ([] : List (List Char)) = m2 := Option.some.inj hm2
                  rw [← hm2'] at hstrm2
                  exact absurd hstrm2 (List.not_mem_nil str)

theorem mem_dedupAcc (l : List (List Char)) :
    ∀ (seen : List (List Char)) (a : List Char),
      a ∈ dedupAcc l seen ↔ a ∈ l ∧ a ∉ seen := by
  induction l with
  | nil => intro seen a; simp [dedupAcc]
  | cons x r ih =>
    intro seen a
    unfold dedupAcc
    by_cases hx : x ∈ seen
    · rw [if_pos hx, ih seen a]
      constructor
      · exact fun ⟨h1, h2⟩ => ⟨List.mem_cons_of_mem x h1, h2⟩
      · rintro ⟨h1, h2⟩
        rcases List.mem_cons.mp h1 with rfl | h1
        · exact absurd hx h2
        · exact ⟨h1, h2⟩
    · rw [if_neg hx, List.mem_cons, ih (x :: seen) a]
      constructor
      · rintro (rfl | ⟨h1, h2⟩)
        · exact ⟨List.mem_cons_self a r, hx⟩
        · exact ⟨List.mem_cons_of_mem x h1, fun hc => h2 (List.mem_cons_of_mem x hc)⟩
      · rintro ⟨h1, h2⟩
        rcases List.mem_cons.mp h1 with rfl | h1
        · exact Or.inl rfl
        · by_cases hax : a = x
          · exact Or.inl hax
          · refine Or.inr ⟨h1, fun hc => ?_⟩
            rcases List.mem_cons.mp hc with hax' | hc'
            · exact hax hax'
            · exact h2 hc'

theorem mem_insertByLen (a b : List Char) :
    ∀ l : List (List Char), b ∈ insertByLen a l ↔ b = a ∨ b ∈ l := by
  intro l
  induction l with
  | nil => simp [insertByLen]
  | cons x r ih =>
    unfold insertByLen
    by_cases hx : x.length ≤ a.length
    · rw [if_pos hx]
      simp
    · rw [if_neg hx]
      simp only [List.mem_cons, ih]
      tauto

theorem mem_sortByLenDesc (b : List Char) :
    ∀ l : List (List Char), b ∈ sortByLenDesc l ↔ b ∈ l := by
  intro l
  induction l with
  | nil => simp [sortByLenDesc]
  | cons x r ih =>
    unfold sortByLenDesc at ih ⊢
    simp only [List.foldr_cons, mem_insertByLen, ih, List.mem_cons]

/-- C6 amended: under reverse orientation the claim holds for every pattern
set the program itself builds from primers longer than the mismatch budget:
each generated alternative parses into a (possibly empty) run of anchors
followed by a non-empty body of consuming tokens, an alternative whose
anchor run contains the (misplaced) `$` can never match at all, and for the
remaining alternatives the kept region `[0, s)` lies strictly before the
leftmost match start `s`, so re-running the clip decision on the emitted
record finds no primer match.  Under forward orientation the claim fails:
the clipped output can contain a second primer occurrence and is clipped
again (see the counterexample). -/
theorem C6_reverse_idempotent (primers : List (List Char)) (mm : Nat) (strs : List (List Char))
    (hlong : ∀ p ∈ primers, mm < p.length)
    (hload : load_primers_as_re primers mm = Except.ok strs)
    (min_len : Nat) (keep : Bool) (c c' : Counters) (r r' : FqRecord) (s e : Nat)
    (h : re_search (compileAll strs) (upper r.sequence) = some (s, e))
    (hstep : fastq_reverse_step (compileAll strs) min_len keep c r = (c', some r')) :
    re_search (compileAll strs) (upper r'.sequence) = none := by
  have hshape : ∀ pat ∈ compileAll strs, ∃ A body, pat = A ++ body ∧
      (∀ x ∈ A, x = Tok.start ∨ x = Tok.stop) ∧ body ≠ [] ∧ ∀ x ∈ body, dnaTok x := by
    intro pat hpat
    obtain ⟨str, hstr, hpc⟩ := List.mem_map.mp hpat
    unfold load_primers_as_re at hload
    cases hmap : mapExcept (fun s0 => make_reg_ex_mm s0 mm) primers with
    | error e2 =>
      rw [hmap] at hload
      exact Except.noConfusion
        (show (Except.error e2 : Except String (List (List Char))) = Except.ok strs from hload)
    | ok patss =>
      rw [hmap] at hload
      have hstrs : sortByLenDesc (dedupAcc patss.flatten []) = strs :=
        Except.ok.inj (show Except.ok (sortByLenDesc (dedupAcc patss.flatten [])) =
          Except.ok strs from hload)
      rw [← hstrs, mem_sortByLenDesc, mem_dedupAcc] at hstr
      obtain ⟨pl, hpl, hstrpl⟩ := List.mem_flatten.mp hstr.1
      obtain ⟨p, hp, hpok⟩ := mapExcept_ok_mem _ primers patss hmap pl hpl
      obtain ⟨A, body, hpeq, hA, hbne, hd⟩ :=
        make_reg_ex_mm_shape (mm + 1) p mm pl (hlong p hp) hpok str hstrpl
      exact ⟨A, body, by rw [← hpc]; exact hpeq, hA, hbne, hd⟩
  have hr' : r'.sequence = (upper r.sequence).take s := by
    unfold fastq_reverse_step at hstep
    simp only [h] at hstep
    split at hstep
    · simp only [Prod.mk.injEq, Option.some.injEq] at hstep
      rw [← hstep.2]
    · simp at hstep
  have hupfix : upper r'.sequence = (upper r.sequence).take s := by
    rw [hr']
    have hmt : upper ((upper r.sequence).take s) = (upper (upper r.sequence)).take s := by
      unfold upper
      rw [List.map_take]
    rw [hmt, upper_upper]
  obtain ⟨hab, hsl, -, -, hleft⟩ := re_search_some (compileAll strs) (upper r.sequence) s e h
  rw [hupfix]
  cases hres : re_search (compileAll strs) ((upper r.sequence).take s) with
  | none => rfl
  | some ab =>
    exfalso
    rcases ab with ⟨a, b⟩
    obtain ⟨-, -, -, hmf, -⟩ := re_search_some _ _ _ _ hres
    obtain ⟨pat, hpat, hmt2⟩ := matchFirstAt_some _ _ _ _ hmf
    obtain ⟨A, body, hpeq, hA, hbne, hdna⟩ := hshape pat hpat
    obtain ⟨tk, rest, rfl⟩ := List.exists_cons_of_ne_nil hbne
    by_cases hstopA : Tok.stop ∈ A
    · rw [hpeq] at hmt2
      rw [anchored_stop_no_match _ tk (hdna tk (List.mem_cons_self tk rest)) rest a
        A hA hstopA] at hmt2
      exact Option.noConfusion hmt2
    · have hnostop : Tok.stop ∉ pat := by
        rw [hpeq]
        intro hc
        rcases List.mem_append.mp hc with h1 | h2
        · exact hstopA h1
        · exact (dnaTok_ne (hdna _ h2)).2 rfl
      have hcons : ∃ x ∈ pat, x ≠ Tok.start ∧ x ≠ Tok.stop := by
        refine ⟨tk, ?_, dnaTok_ne (hdna tk (List.mem_cons_self tk rest))⟩
        rw [hpeq]
        exact List.mem_append_right A (List.mem_cons_self tk rest)
      have halt : a < ((upper r.sequence).take s).length :=
        matchToks_consumes _ _ hnostop hcons a b hmt2
      have has : a < s := by
        rw [List.length_take] at halt
        omega
      have hlift : matchToks (upper r.sequence) pat a = some b :=
        matchToks_take_lift _ s pat hnostop a b hmt2
      have hnone := (matchFirstAt_none_iff (compileAll strs) (upper r.sequence) a).mp
        (hleft a has) pat hpat
      rw [hnone] at hlift
      exact Option.noConfusion hlift

theorem C6_reverse_idempotent_witness :
    re_search (compileAll [['A', 'C', 'G', 'T'], ['^', 'C', 'G', 'T'], ['$', 'A', 'C', 'G'],
        ['.', 'C', 'G', 'T'], ['A', '.', 'G', 'T'], ['A', 'C', '.', 'T'], ['A', 'C', 'G', '.']])
      (upper ['G', 'G']) = none :=
  C6_reverse_idempotent [['A', 'C', 'G', 'T']] 1
    [['A', 'C', 'G', 'T'], ['^', 'C', 'G', 'T'], ['$', 'A', 'C', 'G'],
     ['.', 'C', 'G', 'T'], ['A', '.', 'G', 'T'], ['A', 'C', '.', 'T'], ['A', 'C', 'G', '.']]
    (by decide) (by rfl) 0 false Counters.zero ⟨1, 0, 0, 0⟩
    ⟨[], ['G', 'G', 'A', 'C', 'G', 'T', 'T', 'T'],
     ['q', 'q', 'q', 'q', 'q', 'q', 'q', 'q']⟩
    ⟨[], ['G', 'G'], ['q', 'q']⟩ 2 6 (by decide) (by decide)

/-! ### Substitution tolerance (C4) -/

theorem acgt_toUpper_fixed {ch : Char} (h : ch ∈ (['A', 'C', 'G', 'T'] : List Char)) :
    ch.toUpper = ch := by
  fin_cases h <;> decide

theorem acgt_ne_newline {ch : Char} (h : ch ∈ (['A', 'C', 'G', 'T'] : List Char)) :
    ch ≠ '\n' := by
  fin_cases h <;> decide

theorem mapOption_map {α β : Type} (f : α → Option β) (g : α → β) (l : List α)
    (h : ∀ x ∈ l, f x = some (g x)) : mapOption f l = some (l.map g) := by
  induction l with
  | nil => rfl
  | cons x r ih =>
    unfold mapOption
    rw [h x (List.mem_cons_self x r), ih (fun y hy => h y (List.mem_cons_of_mem x hy))]
    rfl

theorem make_reg_ex_append_some {l1 l2 a b : List Char}
    (h1 : make_reg_ex l1 = some a) (h2 : make_reg_ex l2 = some b) :
    make_reg_ex (l1 ++ l2) = some (a ++ b) := by
  induction l1 generalizing a with
  | nil =>
    simp only [make_reg_ex, Option.some.injEq] at h1
    subst h1
    simpa using h2
  | cons c r ih =>
    unfold make_reg_ex at h1
    cases hc : ambiguous_dna_re c with
    | none => simp [hc] at h1
    | some f =>
      cases hr : make_reg_ex r with
      | none => simp [hc, hr] at h1
      | some r' =>
        simp only [hc, hr, Option.some.injEq] at h1
        show (match ambiguous_dna_re c, make_reg_ex (r ++ l2) with
              | some f, some rr => some (f ++ rr)
              | _, _ => none) = some (a ++ b)
        rw [hc, ih hr]
        rw [← h1, List.append_assoc]

theorem make_reg_ex_maskOne {p : List Char}
    (hp : ∀ ch ∈ p, ch ∈ (['A', 'C', 'G', 'T'] : List Char)) (i : Nat) :
    make_reg_ex (maskOne p i) = some (p.take i ++ '.' :: p.drop (i + 1)) := by
  have h1 : make_reg_ex (p.take i) = some (p.take i) :=
    make_reg_ex_unamb (fun ch hch => hp ch (List.mem_of_mem_take hch))
  have h2 : make_reg_ex (p.drop (i + 1)) = some (p.drop (i + 1)) :=
    make_reg_ex_unamb (fun ch hch => hp ch (List.mem_of_mem_drop hch))
  have h3 : make_reg_ex ('N' :: p.drop (i + 1)) = some ('.' :: p.drop (i + 1)) := by
    unfold make_reg_ex
    rw [h2]
    rfl
  exact make_reg_ex_append_some h1 h3

theorem maskPats1_unamb {p : List Char}
    (hp : ∀ ch ∈ p, ch ∈ (['A', 'C', 'G', 'T'] : List Char)) :
    maskPats1 p 1 = some ((List.range p.length).map
      (fun i => p.take i ++ '.' :: p.drop (i + 1))) := by
  unfold maskPats1
  rw [if_pos (by omega)]
  exact mapOption_map _ _ _ (fun i _ => make_reg_ex_maskOne hp i)

theorem take_set_of_le (l : List Char) (i j : Nat) (a : Char) (h : j ≤ i) :
    (l.set i a).take j = l.take j := by
  apply List.ext_getElem?_iff.mpr
  intro k
  by_cases hk : k < j
  · rw [List.getElem?_take_of_lt hk, List.getElem?_take_of_lt hk]
    exact List.getElem?_set_ne (by omega)
  · rw [List.getElem?_take_eq_none (by omega), List.getElem?_take_eq_none (by omega)]


theorem matchToks_append (t : List Char) (ts1 ts2 : List Tok) :
    ∀ q, matchToks t (ts1 ++ ts2) q =
      (matchToks t ts1 q).bind (fun m => matchToks t ts2 m) := by
  induction ts1 with
  | nil => intro q; simp [matchToks]
  | cons tk ts1 ih =>
    intro q
    cases tk with
    | start =>
      simp only [List.cons_append, matchToks]
      split
      · exact ih q
      · simp
    | stop =>
      simp only [List.cons_append, matchToks]
      split
      · exact ih q
      · simp
    | any =>
      simp only [List.cons_append, matchToks]
      split
      · split
        · rfl
        · exact ih (q + 1)
      · rfl
    | lit ch =>
      simp only [List.cons_append, matchToks]
      split
      · exact ih (q + 1)
      · rfl
    | cls cs =>
      simp only [List.cons_append, matchToks]
      split
      · split
        · exact ih (q + 1)
        · rfl
      · rfl

theorem upper_acgt {p : List Char} (hp : ∀ ch ∈ p, ch ∈ (['A', 'C', 'G', 'T'] : List Char)) :
    upper p = p :=
  upper_eq_self (fun ch hch => acgt_toUpper_fixed (hp ch hch))

theorem make_reg_ex_mm_one {p : List Char}
    (hp : ∀ ch ∈ p, ch ∈ (['A', 'C', 'G', 'T'] : List Char)) :
    make_reg_ex_mm p 1 = Except.ok
      (p :: ('^' :: p.drop 1) :: ('$' :: p.take (p.length - 1)) ::
        (List.range p.length).map (fun i => p.take i ++ '.' :: p.drop (i + 1))) := by
  have hup : upper p = p := upper_acgt hp
  have hb : make_reg_ex p = some p := make_reg_ex_unamb hp
  have hpd : ∀ ch ∈ p.drop 1, ch ∈ (['A', 'C', 'G', 'T'] : List Char) :=
    fun ch hch => hp ch (List.mem_of_mem_drop hch)
  have hpt : ∀ ch ∈ p.take (p.length - 1), ch ∈ (['A', 'C', 'G', 'T'] : List Char) :=
    fun ch hch => hp ch (List.mem_of_mem_take hch)
  have hfront : make_reg_ex_mm_aux 1 (p.drop 1) 0 = Except.ok [p.drop 1] := by
    have h := make_reg_ex_mm_zero (p := p.drop 1)
      (by rw [upper_acgt hpd]; exact make_reg_ex_unamb hpd)
    unfold make_reg_ex_mm at h
    rw [upper_acgt hpd] at h
    exact h
  have hback : make_reg_ex_mm_aux 1 (p.take (p.length - 1)) 0 =
      Except.ok [p.take (p.length - 1)] := by
    have h := make_reg_ex_mm_zero (p := p.take (p.length - 1))
      (by rw [upper_acgt hpt]; exact make_reg_ex_unamb hpt)
    unfold make_reg_ex_mm at h
    rw [upper_acgt hpt] at h
    exact h
  unfold make_reg_ex_mm make_reg_ex_mm_aux
  rw [if_neg (by omega)]
  simp only [hup, hb, show List.range 1 = [0] from rfl, mapExcept, Nat.zero_add,
    Nat.sub_self, hfront, hback, maskPats1_unamb hp]
  simp only [maskPats2, if_neg (by omega : ¬ 2 ≤ 1)]
  simp [List.flatten]

theorem load_singleton_eq {p : List Char} {L : List (List Char)}
    (hmm : make_reg_ex_mm p 1 = Except.ok L) :
    load_primers_as_re [p] 1 = Except.ok (sortByLenDesc (dedupAcc L [])) := by
  unfold load_primers_as_re
  simp only [mapExcept, hmm]
  simp

theorem matchToks_mask_inv {p : List Char} {i : Nat} {t : List Char} {a e : Nat}
    (h : matchToks t ((p.take i).map Tok.lit ++ Tok.any :: (p.drop (i + 1)).map Tok.lit) a =
      some e) :
    (p.take i) <+: t.drop a ∧
    (∃ c, t[a + (p.take i).length]? = some c ∧ c ≠ '\n') ∧
    (p.drop (i + 1)) <+: t.drop (a + (p.take i).length + 1) := by
  rw [matchToks_append] at h
  cases h1 : matchToks t ((p.take i).map Tok.lit) a with
  | none => rw [h1] at h; simp at h
  | some m =>
    rw [h1] at h
    rw [show (some m).bind (fun m => matchToks t (Tok.any :: (p.drop (i + 1)).map Tok.lit) m) =
      matchToks t (Tok.any :: (p.drop (i + 1)).map Tok.lit) m from rfl] at h
    rw [matchToks_lits] at h1
    by_cases hpre : (p.take i).isPrefixOf (t.drop a) = true
    · rw [if_pos hpre] at h1
      have hm : m = a + (p.take i).length := by
        simpa using h1.symm
      subst hm
      simp only [matchToks] at h
      cases hq : t[a + (p.take i).length]? with
      | none =>
        simp only [hq] at h
        exact absurd h (by simp)
      | some c =>
        simp only [hq] at h
        by_cases hc : c = '\n'
        · rw [if_pos hc] at h
          exact absurd h (by simp)
        · rw [if_neg hc] at h
          rw [matchToks_lits] at h
          by_cases hpre2 : (p.drop (i + 1)).isPrefixOf
              (t.drop (a + (p.take i).length + 1)) = true
          · exact ⟨List.isPrefixOf_iff_prefix.mp hpre,
              ⟨c, rfl, hc⟩, List.isPrefixOf_iff_prefix.mp hpre2⟩
          · rw [if_neg hpre2] at h
            exact absurd h (by simp)
    · rw [if_neg hpre] at h1
      simp at h1

theorem matchToks_mask_construct {p : List Char} {i : Nat} {t : List Char} {a : Nat}
    (h1 : (p.take i) <+: t.drop a) {c : Char} (hq : t[a + (p.take i).length]? = some c)
    (hc : c ≠ '\n') (h3 : (p.drop (i + 1)) <+: t.drop (a + (p.take i).length + 1)) :
    matchToks t ((p.take i).map Tok.lit ++ Tok.any :: (p.drop (i + 1)).map Tok.lit) a =
      some (a + (p.take i).length + 1 + (p.drop (i + 1)).length) := by
  rw [matchToks_append, matchToks_lits, if_pos (List.isPrefixOf_iff_prefix.mpr h1)]
  rw [show ((some (a + (p.take i).length)).bind
      (fun m => matchToks t (Tok.any :: (p.drop (i + 1)).map Tok.lit) m)) =
    matchToks t (Tok.any :: (p.drop (i + 1)).map Tok.lit) (a + (p.take i).length) from rfl]
  simp only [matchToks, hq]
  rw [if_neg hc, matchToks_lits, if_pos (List.isPrefixOf_iff_prefix.mpr h3)]

theorem compileRegex_mask {p : List Char}
    (hp : ∀ ch ∈ p, ch ∈ (['A', 'C', 'G', 'T'] : List Char)) (i : Nat) :
    compileRegex (p.take i ++ '.' :: p.drop (i + 1)) =
      (p.take i).map Tok.lit ++ Tok.any :: (p.drop (i + 1)).map Tok.lit := by
  unfold compileRegex
  rw [parseToks_plain_append _ _ _
    (fun ch hch => acgt_plain (hp ch (List.mem_of_mem_take hch)))]
  congr 1
  rw [show parseToks ('.' :: p.drop (i + 1)) false [] =
    Tok.any :: parseToks (p.drop (i + 1)) false [] from rfl]
  rw [parseToks_plain _ (fun ch hch => acgt_plain (hp ch (List.mem_of_mem_drop hch)))]

/-- C4 counterexample: for the primer `AACAA` at one allowed mismatch, the
target `ACAAA` — the primer with its bases at positions 1 and 2 substituted
(two substitutions, neither at an ambiguous position) — IS matched by the
compiled matcher, through the start-truncation pattern `^ACAA`, contrary to
the claim that a two-substitution target never matches at `mismatches=1`. -/
theorem C4_counterexample :
    ((['A', 'A', 'C', 'A', 'A'] : List Char).set 1 'C').set 2 'A' =
      ['A', 'C', 'A', 'A', 'A'] ∧
    (['A', 'A', 'C', 'A', 'A'] : List Char)[1]? = some 'A' ∧
    (['A', 'A', 'C', 'A', 'A'] : List Char)[2]? = some 'C' ∧
    ('C' : Char) ≠ 'A' ∧
    (load_primers_as_re [['A', 'A', 'C', 'A', 'A']] 1).toOption.map
      (fun ps => (re_search (compileAll ps) ['A', 'C', 'A', 'A', 'A']).isSome) =
      some true := by
  decide

/-- C4 amended: for an unambiguous primer at `mismatches=1`, a target with
one substituted base — at any position of the primer, the last included —
always matches (part one, via the single-wildcard pattern at the
substituted position), and a target with bases substituted at two
distinct positions is matched by none of the untruncated patterns — the
exact pattern `base` produced by `make_reg_ex` and the single-wildcard
patterns `m1` produced by `maskPats1` (part two); the full matcher may
nevertheless still match such a target through a boundary-truncation
pattern, as the counterexample shows. -/
theorem C4_substitution_tolerance (p : List Char)
    (hp : ∀ ch ∈ p, ch ∈ (['A', 'C', 'G', 'T'] : List Char))
    (pats : List (List Char)) (hload : load_primers_as_re [p] 1 = Except.ok pats)
    (base : List Char) (hbase : make_reg_ex p = some base)
    (m1 : List (List Char)) (hm1 : maskPats1 p 1 = some m1) :
    (∀ j, j < p.length → ∀ b ∈ (['A', 'C', 'G', 'T'] : List Char),
      p[j]? ≠ some b → (re_search (compileAll pats) (p.set j b)).isSome) ∧
    (∀ j1 j2, j1 < j2 → j2 < p.length → ∀ b1 b2 : Char,
      p[j1]? ≠ some b1 → p[j2]? ≠ some b2 →
      re_search (compileAll (base :: m1)) ((p.set j1 b1).set j2 b2) = none) := by
  have hbase' : base = p := by
    rw [make_reg_ex_unamb hp] at hbase
    exact (Option.some.inj hbase).symm
  have hm1' : m1 = (List.range p.length).map (fun i => p.take i ++ '.' :: p.drop (i + 1)) := by
    rw [maskPats1_unamb hp] at hm1
    exact (Option.some.inj hm1).symm
  rw [hbase', hm1']
  constructor
  · intro j1 hj1n b1 hb1 hne1
    have hlen_take1 : (p.take j1).length = j1 := by
      rw [List.length_take]
      omega
    have htake1 : (p.set j1 b1).take j1 = p.take j1 :=
      take_set_of_le p j1 j1 b1 (Nat.le_refl j1)
    have h1 : (p.take j1) <+: (p.set j1 b1).drop 0 := by
      rw [List.drop_zero, ← htake1]
      exact List.take_prefix j1 (p.set j1 b1)
    have hq1 : (p.set j1 b1)[0 + (p.take j1).length]? = some b1 := by
      rw [hlen_take1, Nat.zero_add]
      exact List.getElem?_set_eq (by omega)
    have h3 : (p.drop (j1 + 1)) <+: (p.set j1 b1).drop (0 + (p.take j1).length + 1) := by
      rw [hlen_take1, Nat.zero_add]
      rw [List.drop_set_of_lt b1 p (show j1 < j1 + 1 by omega)]
    have hmatch := matchToks_mask_construct (p := p) (i := j1) h1 hq1
      (acgt_ne_newline hb1) h3
    have hload2 := load_singleton_eq (make_reg_ex_mm_one hp)
    rw [hload] at hload2
    have hpats : pats = sortByLenDesc (dedupAcc
        (p :: ('^' :: p.drop 1) :: ('$' :: p.take (p.length - 1)) ::
          (List.range p.length).map (fun i => p.take i ++ '.' :: p.drop (i + 1))) []) :=
      Except.ok.inj hload2
    have hx1 : (p.take j1 ++ '.' :: p.drop (j1 + 1)) ∈ pats := by
      rw [hpats, mem_sortByLenDesc, mem_dedupAcc]
      refine ⟨?_, List.not_mem_nil _⟩
      apply List.mem_cons_of_mem
      apply List.mem_cons_of_mem
      apply List.mem_cons_of_mem
      exact List.mem_map_of_mem _ (List.mem_range.mpr (by omega))
    have hpatmem : compileRegex (p.take j1 ++ '.' :: p.drop (j1 + 1)) ∈ compileAll pats :=
      List.mem_map_of_mem _ hx1
    exact re_search_isSome_of_match (compileAll pats) (p.set j1 b1) _ hpatmem 0 _
      (Nat.zero_le _) (by rw [compileRegex_mask hp j1]; exact hmatch)
  · intro j1 j2 hj12 hj2 b1 b2 hne1 hne2
    have hj1n : j1 < p.length := by omega
    have lt2 : ((p.set j1 b1).set j2 b2).length = p.length := by
      simp [List.length_set]
    have ht2j1 : ((p.set j1 b1).set j2 b2)[j1]? = some b1 := by
      rw [List.getElem?_set_ne (show j2 ≠ j1 by omega)]
      exact List.getElem?_set_eq (by omega)
    have ht2j2 : ((p.set j1 b1).set j2 b2)[j2]? = some b2 :=
      List.getElem?_set_eq (by rw [List.length_set]; omega)
    cases hres : re_search (compileAll (p :: (List.range p.length).map
        (fun i => p.take i ++ '.' :: p.drop (i + 1)))) ((p.set j1 b1).set j2 b2) with
    | none => rfl
    | some ab =>
      exfalso
      rcases ab with ⟨a, b⟩
      obtain ⟨-, -, -, hmf, -⟩ := re_search_some _ _ _ _ hres
      obtain ⟨pat, hpat, hmt⟩ := matchFirstAt_some _ _ _ _ hmf
      obtain ⟨x, hx, rfl⟩ := List.mem_map.mp hpat
      rcases List.mem_cons.mp hx with rfl | hxm
      · rw [show compileRegex x = x.map Tok.lit from
          parseToks_plain x (fun ch hch => acgt_plain (hp ch hch))] at hmt
        rw [matchToks_lits] at hmt
        split at hmt
        case isTrue hpre =>
          have hpp := List.isPrefixOf_iff_prefix.mp hpre
          have hlen := hpp.length_le
          rw [List.length_drop, lt2] at hlen
          have ha0 : a = 0 := by omega
          subst ha0
          rw [List.drop_zero] at hpp
          have hxeq := hpp.eq_of_length (by omega)
          rw [← hxeq] at ht2j2
          exact hne2 ht2j2
        case isFalse => exact absurd hmt (by simp)
      · obtain ⟨i, hi, rfl⟩ := List.mem_map.mp hxm
        have hirange : i < p.length := List.mem_range.mp hi
        have hlen_take : (p.take i).length = i := by
          rw [List.length_take]
          omega
        rw [compileRegex_mask hp i] at hmt
        obtain ⟨h1, ⟨c, hcq, -⟩, h3⟩ := matchToks_mask_inv hmt
        rw [hlen_take] at hcq
        have haib : a + i < ((p.set j1 b1).set j2 b2).length := by
          by_contra hge
          rw [List.getElem?_eq_none (by omega)] at hcq
          simp at hcq
        rw [lt2] at haib
        have h3len := h3.length_le
        rw [List.length_drop, List.length_drop, lt2, hlen_take] at h3len
        have ha0 : a = 0 := by omega
        subst ha0
        rw [List.drop_zero] at h1
        rw [show 0 + i = i from by omega] at hcq
        rw [show 0 + (p.take i).length + 1 = i + 1 from by rw [hlen_take]; omega] at h3
        have hgettake : ∀ k : Nat, k < i → ((p.set j1 b1).set j2 b2)[k]? = p[k]? := by
          intro k hk
          have h := prefix_getElem? h1 (show k < (p.take i).length by omega)
          rw [List.getElem?_take_of_lt hk] at h
          exact h
        have hgetdrop : ∀ k : Nat, k < (p.drop (i + 1)).length →
            ((p.set j1 b1).set j2 b2)[(i + 1) + k]? = p[(i + 1) + k]? := by
          intro k hk
          have h := prefix_getElem? h3 hk
          rw [List.getElem?_drop, List.getElem?_drop] at h
          exact h
        by_cases hij1 : j1 < i
        · have h := hgettake j1 hij1
          rw [ht2j1] at h
          exact hne1 h.symm
        · by_cases hij1' : i = j1
          · subst hij1'
            have hk : j2 - (i + 1) < (p.drop (i + 1)).length := by
              rw [List.length_drop]
              omega
            have h := hgetdrop (j2 - (i + 1)) hk
            rw [show (i + 1) + (j2 - (i + 1)) = j2 from by omega] at h
            rw [ht2j2] at h
            exact hne2 h.symm
          · have hlt : i < j1 := by omega
            have hk : j1 - (i + 1) < (p.drop (i + 1)).length := by
              rw [List.length_drop]
              omega
            have h := hgetdrop (j1 - (i + 1)) hk
            rw [show (i + 1) + (j1 - (i + 1)) = j1 from by omega] at h
            rw [ht2j1] at h
            exact hne1 h.symm

theorem C4_substitution_tolerance_witness :
    (re_search (compileAll [['A', 'A', 'C', 'A', 'A'], ['^', 'A', 'C', 'A', 'A'],
        ['$', 'A', 'A', 'C', 'A'], ['.', 'A', 'C', 'A', 'A'], ['A', '.', 'C', 'A', 'A'],
        ['A', 'A', '.', 'A', 'A'], ['A', 'A', 'C', '.', 'A'], ['A', 'A', 'C', 'A', '.']])
      ((['A', 'A', 'C', 'A', 'A'] : List Char).set 4 'C')).isSome ∧
    re_search (compileAll (['A', 'A', 'C', 'A', 'A'] ::
        [['.', 'A', 'C', 'A', 'A'], ['A', '.', 'C', 'A', 'A'], ['A', 'A', '.', 'A', 'A'],
         ['A', 'A', 'C', '.', 'A'], ['A', 'A', 'C', 'A', '.']]))
      (((['A', 'A', 'C', 'A', 'A'] : List Char).set 1 'C').set 2 'A') = none := by
  have h := C4_substitution_tolerance ['A', 'A', 'C', 'A', 'A'] (by decide)
    [['A', 'A', 'C', 'A', 'A'], ['^', 'A', 'C', 'A', 'A'], ['$', 'A', 'A', 'C', 'A'],
     ['.', 'A', 'C', 'A', 'A'], ['A', '.', 'C', 'A', 'A'], ['A', 'A', '.', 'A', 'A'],
     ['A', 'A', 'C', '.', 'A'], ['A', 'A', 'C', 'A', '.']] (by rfl)
    ['A', 'A', 'C', 'A', 'A'] (by decide)
    [['.', 'A', 'C', 'A', 'A'], ['A', '.', 'C', 'A', 'A'], ['A', 'A', '.', 'A', 'A'],
     ['A', 'A', 'C', '.', 'A'], ['A', 'A', 'C', 'A', '.']] (by decide)
  exact ⟨h.1 4 (by decide) 'C' (by decide) (by decide),
    h.2 1 2 (by decide) (by decide) 'C' 'A' (by decide) (by decide)⟩
